import Mathlib

/-!
Verification development for the `signal-kernel` reactive runtime.

The TypeScript sources (packages/core: graph.ts, signal.ts, computed.ts,
effect.ts, registry.ts, scheduler.ts; packages/async-runtime: fromPromise.ts)
are shallowly embedded below.  Runtime values are modelled by the inductive
`Val` (JavaScript numbers restricted to integers, `undefined`, async status
strings, and error objects).  User callbacks (effect bodies, computed getters,
atomic/batch bodies) are deeply embedded as `Cmd` / `Expr` programs over the
public API, and the global mutable runtime (node heap, scheduler queues,
batch/atomic counters, write-log stack, observer and active-effect references)
is a `RT` record threaded through a fuel-indexed interpreter.  Exceptions are
modelled by results of type `Except Err _ × RT`: the state survives a throw,
exactly as the JavaScript heap does.  Fuel exhaustion surfaces as the model
artifact `Err.oof`, which no real execution produces.
-/

deriving instance DecidableEq for Except

namespace SignalKernel

/-- Async status strings of the async-runtime package.  `cancelled` is the
extra status produced by `cancel()` in fromPromise.ts. -/
inductive AStatus where
  | idle | pending | success | error | cancelled
deriving DecidableEq, Repr

/-- A JavaScript error value as far as fromPromise.ts inspects it:
`isAbortNamed` is true when `err.name === "AbortError"` (covering both the
`DOMException` case and the plain-object case of `isAbortError`). -/
structure JsErr where
  isAbortNamed : Bool
  code : Nat
deriving DecidableEq, Repr

/-- Runtime values stored in signal/computed nodes. -/
inductive Val where
  | int (n : Int)
  | undef
  | status (s : AStatus)
  | errv (e : JsErr)
deriving DecidableEq, Repr

/-- Node kinds, as in graph.ts: `type Kind = 'signal' | 'computed' | 'effect'`. -/
inductive Kind where
  | signal | computed | effect
deriving DecidableEq, Repr

/-- Job kinds of scheduler.ts: `type JobKind = 'computed' | 'effect'`. -/
inductive JobKind where
  | computed | effect
deriving DecidableEq, Repr

/-- Errors thrown by the embedded runtime.  `cycle` is
"Cycle detected in computed", `infinite` is "Infinite update loop",
`topology` is the graph/signal subscription errors, `user` is an error thrown
by user code (identified by a code), `badOp` marks a program that has no
JavaScript counterpart (e.g. referring to a node that was never created), and
`oof` is the out-of-fuel artifact of the model. -/
inductive Err where
  | cycle | infinite | topology | user (code : Nat) | badOp | oof
deriving DecidableEq, Repr

/-- Observable events recorded while the runtime executes, used to state
temporal properties: the start of a `flushJobsTwoPhase` call, the completion
of a computed recomputation, and the start/normal end of an effect run. -/
inductive Ev where
  | flushStart
  | recomputed (c : Nat)
  | effStart (e : Nat)
  | effDone (e : Nat)
deriving DecidableEq, Repr

/-- Expressions a user callback can evaluate: literals, tracked signal reads
(`sig.get()`), tracked computed reads (`c.get()`), addition, a conditional on
positivity, and a throw. -/
inductive Expr where
  | lit (v : Val)
  | sigGet (i : Nat)
  | compGet (i : Nat)
  | add (a b : Expr)
  | ifPos (c t e : Expr)
  | throwE (code : Nat)
deriving Repr

/-- Commands a user callback can perform: a signal write `sig.set(v)` where
the argument expression is evaluated in the caller's tracking context, a bare
read (for dependency registration), an `onCleanup(cb)` registration (cleanup
callbacks are inert and identified by a number), a `createEffect(fn)` call
(which runs the new effect synchronously), and a throw. -/
inductive Cmd where
  | sigSetC (i : Nat) (e : Expr)
  | evalC (e : Expr)
  | cleanupC (cid : Nat)
  | mkEffectC (body : List Cmd)
  | throwC (code : Nat)
deriving Repr

/-- The universal reactive-graph vertex.  One record carries the union of the
fields of signal.ts, computed.ts and effect.ts nodes (TypeScript objects carry
exactly the fields their creator wrote; unused fields keep their defaults).
`registered` models presence in the `SymbolRegistry` of registry.ts;
`jobKind`/`priority` are the optional scheduler-job fields of scheduler.ts. -/
structure Node where
  kind : Kind := .signal
  deps : List Nat := []
  subs : List Nat := []
  value : Val := .undef
  equals : Val → Val → Bool := fun a b => a == b
  stale : Bool := true
  hasValue : Bool := false
  computing : Bool := false
  cbody : Expr := .lit .undef
  disposed : Bool := false
  registered : Bool := false
  ebody : List Cmd := []
  cleanups : List Nat := []
  jobKind : Option JobKind := none
  priority : Option Int := none

/-- The default (never-created) node slot. -/
def nodeDefault : Node := {}

/-- The process-wide mutable state of the runtime: the node heap (indexed by
allocation order), the two scheduler queues, the `scheduled` flag, the
batch/atomic depth counters, the stack of atomic write logs (top at the head;
each log is an insertion-ordered association list, mirroring a JS `Map`), the
`muted` counter, the current observer of graph.ts, the active effect of
effect.ts, and the event trace. -/
structure RT where
  nodes : Nat → Node
  nextId : Nat := 0
  computeQ : List Nat := []
  effectQ : List Nat := []
  scheduled : Bool := false
  batchDepth : Nat := 0
  atomicDepth : Nat := 0
  atomicLogs : List (List (Nat × Val)) := []
  muted : Nat := 0
  currentObserver : Option Nat := none
  activeEffect : Option Nat := none
  trace : List Ev := []

/-- The initial runtime state: nothing allocated, everything quiescent. -/
def init : RT := { nodes := fun _ => nodeDefault }

/-- Read a node slot. -/
def RT.getN (rt : RT) (i : Nat) : Node := rt.nodes i

/-- Update one node slot. -/
def RT.updN (rt : RT) (i : Nat) (f : Node → Node) : RT :=
  { rt with nodes := fun j => if j = i then f (rt.nodes j) else rt.nodes j }

/-- `link(from, to)` of graph.ts minus the signal-observer check: add the edge
`f → t` to both sides.  JS `Set.add` appends in insertion order and the two
mutations happen on live objects, which the single heap update reproduces
(including the `f = t` self-edge case). -/
def addEdge (rt : RT) (f t : Nat) : RT :=
  { rt with nodes := fun j =>
      let n := rt.nodes j
      let n := if j = f then { n with deps := n.deps ++ [t] } else n
      if j = t then { n with subs := n.subs ++ [f] } else n }

/-- `unlink(from, to)` of graph.ts: delete the edge `f → t` from both sides. -/
def unlink (rt : RT) (f t : Nat) : RT :=
  { rt with nodes := fun j =>
      let n := rt.nodes j
      let n := if j = f then { n with deps := n.deps.erase t } else n
      if j = t then { n with subs := n.subs.erase f } else n }

/-- `link(from, to)` of graph.ts: a signal node must not become an observer;
an existing edge is left alone; otherwise the dual edge is created. -/
def link (rt : RT) (f t : Nat) : Except Err Unit × RT :=
  if (rt.getN f).kind = Kind.signal then (.error .topology, rt)
  else if t ∈ (rt.getN f).deps then (.ok (), rt)
  else (.ok (), addEdge rt f t)

/-- `track(dep)` of graph.ts: a no-op without a current observer, otherwise
`link(currentObserver, dep)`. -/
def track (rt : RT) (dep : Nat) : Except Err Unit × RT :=
  match rt.currentObserver with
  | none => (.ok (), rt)
  | some obs => link rt obs dep

/-- JS `Set.add` on a queue: append unless already present. -/
def qAdd (q : List Nat) (j : Nat) : List Nat := if j ∈ q then q else q ++ [j]

/-- `scheduleJob(job)` of scheduler.ts.  Our jobs are effect instances,
identified by their node id; `job.kind ?? 'effect'` selects the queue.  The
armed microtask is modelled by the `scheduled` flag (the `microtask` top-level
operation fires it). -/
def scheduleJob (rt : RT) (j : Nat) : RT :=
  if (rt.getN j).disposed then rt
  else if 0 < rt.muted then rt
  else
    let kind := (rt.getN j).jobKind.getD JobKind.effect
    let rt1 := match kind with
      | .computed => { rt with computeQ := qAdd rt.computeQ j }
      | .effect => { rt with effectQ := qAdd rt.effectQ j }
    if rt1.scheduled = false ∧ rt1.batchDepth = 0 then { rt1 with scheduled := true }
    else rt1

/-- `inAtomic()` of scheduler.ts. -/
def inAtomic (rt : RT) : Bool := 0 < rt.atomicDepth

/-- `recordAtomicWrite(node, prevValue)` of scheduler.ts: no-op without a log;
record the pre-write value only on the first write of the node in the
innermost log. -/
def recordAtomicWrite (rt : RT) (i : Nat) (prev : Val) : RT :=
  match rt.atomicLogs with
  | [] => rt
  | log :: rest =>
      if (log.lookup i).isSome then rt
      else { rt with atomicLogs := (log ++ [(i, prev)]) :: rest }

/-- `markStale(node)` of computed.ts: only computed nodes are marked; an
already-stale node stops the cascade; otherwise set `stale`, then recurse into
computed subscribers and schedule registered effect subscribers.  The fuel
only bounds the recursion depth of the model. -/
def markStale (fuel : Nat) (i : Nat) (rt : RT) : RT :=
  match fuel with
  | 0 => rt
  | fuel + 1 =>
    if (rt.getN i).kind ≠ Kind.computed then rt
    else if (rt.getN i).stale then rt
    else
      let rt1 := rt.updN i (fun n => { n with stale := true })
      ((rt1.getN i).subs).foldl (fun acc s =>
        match (acc.getN s).kind with
        | .computed => markStale fuel s acc
        | .effect => if (acc.getN s).registered then scheduleJob acc s else acc
        | .signal => acc) rt1

/-- The body of signal.ts `set` once the next value has been computed: the
equality gate, the atomic write log, the store, and the synchronous
propagation over the subscribers (computeds are marked stale, registered
effects are scheduled). -/
def setSignal (fuel : Nat) (i : Nat) (nxt : Val) (rt : RT) : RT :=
  let n := rt.getN i
  let prev := n.value
  if n.equals n.value nxt then rt
  else
    let rt1 := if inAtomic rt then recordAtomicWrite rt i prev else rt
    let rt2 := rt1.updN i (fun m => { m with value := nxt })
    if (rt2.getN i).subs = [] then rt2
    else ((rt2.getN i).subs).foldl (fun acc s =>
      match (acc.getN s).kind with
      | .effect => if (acc.getN s).registered then scheduleJob acc s else acc
      | .computed => markStale fuel s acc
      | .signal => acc) rt2

/-- Positivity test used by `Expr.ifPos`. -/
def valPos : Val → Bool
  | .int n => 0 < n
  | _ => false

/-- Addition as user code would compute it on numbers; non-numbers yield
`undef` (the claims never rely on this corner). -/
def valAdd : Val → Val → Val
  | .int a, .int b => .int (a + b)
  | _, _ => .undef

mutual

/-- Evaluate a user expression.  `sigGet` is signal.ts `get` (track, then read);
`compGet` is computed.ts `get`.  `badOp` flags references that have no
JavaScript counterpart (a signal closure that was never created). -/
def interpExpr (fuel : Nat) (e : Expr) (rt : RT) : Except Err Val × RT :=
  match fuel with
  | 0 => (.error .oof, rt)
  | fuel + 1 =>
    match e with
    | .lit v => (.ok v, rt)
    | .sigGet i =>
        if i < rt.nextId ∧ (rt.getN i).kind = Kind.signal then
          match track rt i with
          | (.error err, rt1) => (.error err, rt1)
          | (.ok _, rt1) => (.ok ((rt1.getN i).value), rt1)
        else (.error .badOp, rt)
    | .compGet i => compGet fuel i rt
    | .add a b =>
        match interpExpr fuel a rt with
        | (.error err, rt1) => (.error err, rt1)
        | (.ok va, rt1) =>
          match interpExpr fuel b rt1 with
          | (.error err, rt2) => (.error err, rt2)
          | (.ok vb, rt2) => (.ok (valAdd va vb), rt2)
    | .ifPos c t e =>
        match interpExpr fuel c rt with
        | (.error err, rt1) => (.error err, rt1)
        | (.ok vc, rt1) =>
          if valPos vc then interpExpr fuel t rt1 else interpExpr fuel e rt1
    | .throwE code => (.error (.user code), rt)

/-- computed.ts `get`: track a dependency on the active observer, recompute
when `stale || !hasValue`, return the cached value otherwise. -/
def compGet (fuel : Nat) (i : Nat) (rt : RT) : Except Err Val × RT :=
  match fuel with
  | 0 => (.error .oof, rt)
  | fuel + 1 =>
    if (rt.getN i).kind = Kind.computed then
      match track rt i with
      | (.error err, rt1) => (.error err, rt1)
      | (.ok _, rt1) =>
        if (rt1.getN i).stale ∨ (rt1.getN i).hasValue = false then
          match recompute fuel i rt1 with
          | (.error err, rt2) => (.error err, rt2)
          | (.ok _, rt2) => (.ok ((rt2.getN i).value), rt2)
        else (.ok ((rt1.getN i).value), rt1)
    else (.error .badOp, rt)

/-- computed.ts `recompute`: the cycle guard, the detach of the previous
dependencies, `withObserver(node, fn)` (which restores the observer also on
throw), the equality-gated store, and the clearing of `stale`/`computing`.
Note that on a throw out of `fn` the source has no `finally`, so `computing`
stays `true`.  The `recomputed` trace event marks successful completion. -/
def recompute (fuel : Nat) (i : Nat) (rt : RT) : Except Err Unit × RT :=
  match fuel with
  | 0 => (.error .oof, rt)
  | fuel + 1 =>
    if (rt.getN i).computing then (.error .cycle, rt)
    else
      let rt1 := rt.updN i (fun n => { n with computing := true })
      let rt2 := ((rt1.getN i).deps).foldl (fun acc d => unlink acc i d) rt1
      let prevObs := rt2.currentObserver
      let rt3 := { rt2 with currentObserver := some i }
      match interpExpr fuel ((rt3.getN i).cbody) rt3 with
      | (.error err, rt4) => (.error err, { rt4 with currentObserver := prevObs })
      | (.ok next, rt4) =>
          let rt5 := { rt4 with currentObserver := prevObs }
          let n := rt5.getN i
          let rt6 := if n.hasValue = false ∨ n.equals n.value next = false
                     then rt5.updN i (fun m => { m with value := next, hasValue := true })
                     else rt5
          let rt7 := rt6.updN i (fun m => { m with stale := false, computing := false })
          (.ok (), { rt7 with trace := rt7.trace ++ [.recomputed i] })

end

mutual

/-- Run a list of commands in order; the first throw aborts the rest. -/
def interpCmds (fuel : Nat) (cs : List Cmd) (rt : RT) : Except Err Unit × RT :=
  match fuel with
  | 0 => (.error .oof, rt)
  | fuel + 1 =>
    match cs with
    | [] => (.ok (), rt)
    | c :: rest =>
      match interpCmd fuel c rt with
      | (.error err, rt1) => (.error err, rt1)
      | (.ok _, rt1) => interpCmds fuel rest rt1

/-- Run one command.  `sigSetC` is signal.ts `set` with a plain value obtained
by evaluating the argument in the caller's context; `cleanupC` is
`onCleanup(cb)` of effect.ts (a no-op without an active effect); `mkEffectC`
is `createEffect(fn)` (allocate, register, run once synchronously). -/
def interpCmd (fuel : Nat) (c : Cmd) (rt : RT) : Except Err Unit × RT :=
  match fuel with
  | 0 => (.error .oof, rt)
  | fuel + 1 =>
    match c with
    | .sigSetC i e =>
        if i < rt.nextId ∧ (rt.getN i).kind = Kind.signal then
          match interpExpr fuel e rt with
          | (.error err, rt1) => (.error err, rt1)
          | (.ok v, rt1) => (.ok (), setSignal fuel i v rt1)
        else (.error .badOp, rt)
    | .evalC e =>
        match interpExpr fuel e rt with
        | (.error err, rt1) => (.error err, rt1)
        | (.ok _, rt1) => (.ok (), rt1)
    | .cleanupC cid =>
        match rt.activeEffect with
        | none => (.ok (), rt)
        | some eid => (.ok (), rt.updN eid (fun n => { n with cleanups := n.cleanups ++ [cid] }))
    | .mkEffectC body =>
        let eid := rt.nextId
        let rt1 : RT := { rt with
          nextId := eid + 1,
          nodes := fun j => if j = eid then
              { kind := Kind.effect, ebody := body, registered := true } else rt.nodes j }
        runEffect fuel eid rt1
    | .throwC code => (.error (.user code), rt)

/-- effect.ts `EffectInstance.run`: skip when disposed; drain cleanups (inert
in the model); detach all dependencies; set the active effect to this
instance; run the body under `withObserver`; on every exit path reset the
active effect to `null` (the source restores `null`, not the previous
value) and restore the observer.  `effStart`/`effDone` trace the run. -/
def runEffect (fuel : Nat) (eid : Nat) (rt : RT) : Except Err Unit × RT :=
  match fuel with
  | 0 => (.error .oof, rt)
  | fuel + 1 =>
    if (rt.getN eid).disposed then (.ok (), rt)
    else
      let rt1 := rt.updN eid (fun n => { n with cleanups := [] })
      let rt2 := ((rt1.getN eid).deps).foldl (fun acc d => unlink acc eid d) rt1
      let prevObs := rt2.currentObserver
      let rt3 := { rt2 with activeEffect := some eid,
                            currentObserver := some eid,
                            trace := rt2.trace ++ [.effStart eid] }
      match interpCmds fuel ((rt3.getN eid).ebody) rt3 with
      | (.error err, rt4) =>
          (.error err, { rt4 with currentObserver := prevObs, activeEffect := none })
      | (.ok _, rt4) =>
          (.ok (), { rt4 with currentObserver := prevObs,
                              activeEffect := none,
                              trace := rt4.trace ++ [.effDone eid] })

end

/-- `(job.priority ?? 0)` of scheduler.ts. -/
def prio (rt : RT) (j : Nat) : Int := ((rt.getN j).priority).getD 0

/-- Insert a job behind all jobs of smaller-or-equal priority: this is the
insertion step of a stable sort, matching the stability of JS `Array.sort`. -/
def insJob (rt : RT) (j : Nat) : List Nat → List Nat
  | [] => [j]
  | x :: xs => if prio rt x ≤ prio rt j then x :: insJob rt j xs else j :: x :: xs

/-- `Array.from(effectQ).sort((a, b) => (a.priority ?? 0) - (b.priority ?? 0))`:
a stable sort by ascending priority. -/
def sortJobs (rt : RT) (js : List Nat) : List Nat :=
  js.foldl (fun acc j => insJob rt j acc) []

/-- Run one drained batch of jobs: each job's `kind` is overwritten with the
phase's kind and then `job.run()` is invoked; a throw aborts the rest of the
batch (there is no try/catch in `flushJobsTwoPhase`). -/
def runJobs (fuel : Nat) (k : JobKind) (js : List Nat) (rt : RT) : Except Err Unit × RT :=
  match js with
  | [] => (.ok (), rt)
  | j :: rest =>
    let rt1 := rt.updN j (fun n => { n with jobKind := some k })
    match runEffect fuel j rt1 with
    | (.error err, rt2) => (.error err, rt2)
    | (.ok _, rt2) => runJobs fuel k rest rt2

/-- Phase A of `flushJobsTwoPhase`: repeatedly snapshot and drain `computeQ`
until it stays empty. -/
def phaseA (fuel : Nat) (rt : RT) : Except Err Unit × RT :=
  match fuel with
  | 0 => (.error .oof, rt)
  | fuel + 1 =>
    if rt.computeQ = [] then (.ok (), rt)
    else
      let batchJ := rt.computeQ
      let rt1 := { rt with computeQ := [] }
      match runJobs fuel JobKind.computed batchJ rt1 with
      | (.error err, rt2) => (.error err, rt2)
      | (.ok _, rt2) => phaseA fuel rt2

/-- The outer while-loop of `flushJobsTwoPhase` with its guard counter:
beyond 10000 iterations the source throws "Infinite update loop". -/
def flushLoop (fuel : Nat) (guard : Nat) (rt : RT) : Except Err Unit × RT :=
  match fuel with
  | 0 => (.error .oof, rt)
  | fuel + 1 =>
    if rt.computeQ = [] ∧ rt.effectQ = [] then (.ok (), rt)
    else if 10000 < guard + 1 then (.error .infinite, rt)
    else
      match phaseA fuel rt with
      | (.error err, rt1) => (.error err, rt1)
      | (.ok _, rt1) =>
        if rt1.effectQ = [] then flushLoop fuel (guard + 1) rt1
        else
          let sorted := sortJobs rt1 rt1.effectQ
          let rt2 := { rt1 with effectQ := [] }
          match runJobs fuel JobKind.effect sorted rt2 with
          | (.error err, rt3) => (.error err, rt3)
          | (.ok _, rt3) => flushLoop fuel (guard + 1) rt3

/-- `flushJobsTwoPhase()` of scheduler.ts: clear `scheduled`, then the guarded
two-phase loop.  A `flushStart` trace event marks entry. -/
def flushJobsTwoPhase (fuel : Nat) (rt : RT) : Except Err Unit × RT :=
  flushLoop fuel 0 { rt with scheduled := false, trace := rt.trace ++ [.flushStart] }

/-- `flushSync()` of scheduler.ts. -/
def flushSync (fuel : Nat) (rt : RT) : Except Err Unit × RT :=
  if rt.scheduled = false ∧ rt.computeQ = [] ∧ rt.effectQ = [] then (.ok (), rt)
  else flushJobsTwoPhase fuel rt

/-- `batch(fn)` of scheduler.ts: raise the depth, run the body, lower the
depth in a `finally`, and flush when the depth reaches zero — also when the
body threw (a throw out of the flush then replaces the body's error, as a
throw inside `finally` does in JavaScript). -/
def batch (fuel : Nat) (body : List Cmd) (rt : RT) : Except Err Unit × RT :=
  let rt0 := { rt with batchDepth := rt.batchDepth + 1 }
  match interpCmds fuel body rt0 with
  | (.ok _, rt1) =>
      let rt2 := { rt1 with batchDepth := rt1.batchDepth - 1 }
      if rt2.batchDepth = 0 then flushJobsTwoPhase fuel rt2 else (.ok (), rt2)
  | (.error err, rt1) =>
      let rt2 := { rt1 with batchDepth := rt1.batchDepth - 1 }
      if rt2.batchDepth = 0 then
        match flushJobsTwoPhase fuel rt2 with
        | (.error err2, rt3) => (.error err2, rt3)
        | (.ok _, rt3) => (.error err, rt3)
      else (.error err, rt2)

/-- `mergeChildIntoParent` of scheduler.ts: parent entries win. -/
def mergeChildIntoParent (child parent : List (Nat × Val)) : List (Nat × Val) :=
  child.foldl (fun p nv => if (p.lookup nv.1).isSome then p else p ++ [nv]) parent

/-- `restoreSignalAndMarkStale` of scheduler.ts: write the logged value back
(`writeNodeValue`) and, when the node is a signal, mark its computed
subscribers stale. -/
def restoreSignalAndMarkStale (fuel : Nat) (i : Nat) (prev : Val) (rt : RT) : RT :=
  let rt1 := rt.updN i (fun n => { n with value := prev })
  if (rt1.getN i).kind = Kind.signal then
    ((rt1.getN i).subs).foldl (fun acc s =>
      if (acc.getN s).kind = Kind.computed then markStale fuel s acc else acc) rt1
  else rt1

/-- `exitCommit` of `atomic`: pop the log, merge into the parent frame when
nested, lower the batch depth and flush at depth zero.  The `atomicLogs.pop()!`
on an empty stack has no JavaScript meaning and surfaces as `badOp`. -/
def exitCommit (fuel : Nat) (rt : RT) : Except Err Unit × RT :=
  match rt.atomicLogs with
  | [] => (.error .badOp, rt)
  | log :: rest =>
    let rt1 : RT := { rt with atomicLogs := rest, atomicDepth := rt.atomicDepth - 1 }
    let rt2 : RT :=
      if 0 < rt1.atomicDepth then
        match rt1.atomicLogs with
        | parent :: rest2 => { rt1 with atomicLogs := mergeChildIntoParent log parent :: rest2 }
        | [] => rt1
      else rt1
    let rt3 : RT := { rt2 with batchDepth := rt2.batchDepth - 1 }
    if rt3.batchDepth = 0 then flushJobsTwoPhase fuel rt3 else (.ok (), rt3)

/-- `exitRollback` of `atomic`: pop the log, lower the atomic depth, raise
`muted`, replay the logged pre-write values (marking downstream computeds
stale), clear both queues and `scheduled`, lower `muted`, lower the batch
depth.  No flush. -/
def exitRollback (fuel : Nat) (rt : RT) : Except Err Unit × RT :=
  match rt.atomicLogs with
  | [] => (.error .badOp, rt)
  | log :: rest =>
    let rt1 : RT := { rt with atomicLogs := rest,
                              atomicDepth := rt.atomicDepth - 1,
                              muted := rt.muted + 1 }
    let rt2 := log.foldl (fun acc p => restoreSignalAndMarkStale fuel p.1 p.2 acc) rt1
    let rt3 : RT := { rt2 with computeQ := [], effectQ := [], scheduled := false }
    let rt4 : RT := { rt3 with muted := rt3.muted - 1 }
    (.ok (), { rt4 with batchDepth := rt4.batchDepth - 1 })

/-- The entry bookkeeping of `atomic(fn)`: raise both depths and push an
empty write log. -/
def atomicEnter (rt : RT) : RT :=
  { rt with batchDepth := rt.batchDepth + 1,
            atomicDepth := rt.atomicDepth + 1,
            atomicLogs := [] :: rt.atomicLogs }

/-- `atomic(fn)` of scheduler.ts for a synchronous body: enter, run the body,
commit on normal return and roll back (rethrowing) on throw.  A throw out of
`exitCommit`'s flush is caught by the same catch block and also triggers a
rollback attempt, exactly as in the source. -/
def atomic (fuel : Nat) (body : List Cmd) (rt : RT) : Except Err Unit × RT :=
  let rt0 := atomicEnter rt
  match interpCmds fuel body rt0 with
  | (.ok _, rt1) =>
      match exitCommit fuel rt1 with
      | (.ok u, rt2) => (.ok u, rt2)
      | (.error err, rt2) =>
          match exitRollback fuel rt2 with
          | (.ok _, rt3) => (.error err, rt3)
          | (.error err2, rt3) => (.error err2, rt3)
  | (.error err, rt1) =>
      match exitRollback fuel rt1 with
      | (.ok _, rt2) => (.error err, rt2)
      | (.error err2, rt2) => (.error err2, rt2)

/-- `transaction` is an alias of `atomic`. -/
def transaction (fuel : Nat) (body : List Cmd) (rt : RT) : Except Err Unit × RT :=
  atomic fuel body rt

/-- The public operations of the library (index.ts plus the internal-but-
observable scheduler entry points listed in the spec), as invoked by
top-level user code: node constructors, the closures they return, `batch`,
`atomic`, `flushSync`, and the firing of the armed microtask. -/
inductive Op where
  | newSignal (v : Val) (eq : Val → Val → Bool)
  | newComputed (e : Expr) (eq : Val → Val → Bool)
  | newEffect (body : List Cmd)
  | setTop (i : Nat) (v : Val)
  | getTop (i : Nat)
  | peekTop (i : Nat)
  | compGetTop (i : Nat)
  | compDispose (i : Nat)
  | effDispose (i : Nat)
  | subscribeTop (obs tgt : Nat)
  | detachTop (obs tgt : Nat)
  | cleanupTop (cid : Nat)
  | batchTop (body : List Cmd)
  | atomicTop (body : List Cmd)
  | flushSyncTop
  | microtask

/-- Apply one public operation, discarding any produced value. -/
def applyOp (fuel : Nat) (op : Op) (rt : RT) : Except Err Unit × RT :=
  match op with
  | .newSignal v eq =>
      let i := rt.nextId
      (.ok (), { rt with nextId := i + 1,
                         nodes := fun j => if j = i then
                             { kind := Kind.signal, value := v, equals := eq } else rt.nodes j })
  | .newComputed e eq =>
      let i := rt.nextId
      (.ok (), { rt with nextId := i + 1,
                         nodes := fun j => if j = i then
                             { kind := Kind.computed, value := Val.undef, stale := true,
                               equals := eq, computing := false, hasValue := false,
                               cbody := e } else rt.nodes j })
  | .newEffect body =>
      let eid := rt.nextId
      let rt1 : RT := { rt with
        nextId := eid + 1,
        nodes := fun j => if j = eid then
            { kind := Kind.effect, ebody := body, registered := true } else rt.nodes j }
      runEffect fuel eid rt1
  | .setTop i v =>
      if i < rt.nextId ∧ (rt.getN i).kind = Kind.signal then (.ok (), setSignal fuel i v rt)
      else (.error .badOp, rt)
  | .getTop i =>
      if i < rt.nextId ∧ (rt.getN i).kind = Kind.signal then
        match track rt i with
        | (.error err, rt1) => (.error err, rt1)
        | (.ok _, rt1) => (.ok (), rt1)
      else (.error .badOp, rt)
  | .peekTop _ => (.ok (), rt)
  | .compGetTop i =>
      match compGet fuel i rt with
      | (.error err, rt1) => (.error err, rt1)
      | (.ok _, rt1) => (.ok (), rt1)
  | .compDispose i =>
      if (rt.getN i).kind = Kind.computed then
        let rt1 := ((rt.getN i).deps).foldl (fun acc d => unlink acc i d) rt
        let rt2 := ((rt1.getN i).subs).foldl (fun acc s => unlink acc s i) rt1
        let rt3 := rt2.updN i (fun n => { n with deps := [] })
        let rt4 := rt3.updN i (fun n => { n with subs := [] })
        (.ok (), rt4.updN i (fun n => { n with stale := true, hasValue := false }))
      else (.error .badOp, rt)
  | .effDispose i =>
      if (rt.getN i).kind = Kind.effect then
        if (rt.getN i).disposed then (.ok (), rt)
        else
          let rt1 := rt.updN i (fun n => { n with disposed := true })
          let rt2 := rt1.updN i (fun n => { n with cleanups := [] })
          let rt3 := ((rt2.getN i).deps).foldl (fun acc d => unlink acc i d) rt2
          let rt4 := rt3.updN i (fun n => { n with deps := [] })
          (.ok (), rt4.updN i (fun n => { n with registered := false }))
      else (.error .badOp, rt)
  | .subscribeTop obs tgt =>
      if obs < rt.nextId ∧ tgt < rt.nextId ∧ (rt.getN tgt).kind = Kind.signal then
        if (rt.getN obs).kind = Kind.signal then (.error .topology, rt)
        else link rt obs tgt
      else (.error .badOp, rt)
  | .detachTop obs tgt =>
      if obs < rt.nextId ∧ tgt < rt.nextId then (.ok (), unlink rt obs tgt)
      else (.error .badOp, rt)
  | .cleanupTop cid =>
      match rt.activeEffect with
      | none => (.ok (), rt)
      | some eid => (.ok (), rt.updN eid (fun n => { n with cleanups := n.cleanups ++ [cid] }))
  | .batchTop body => batch fuel body rt
  | .atomicTop body => atomic fuel body rt
  | .flushSyncTop => flushSync fuel rt
  | .microtask => if rt.scheduled then flushJobsTwoPhase fuel rt else (.ok (), rt)

/-- Run a top-level program: each operation's throw is caught by the caller
(the state survives) and the next operation proceeds. -/
def runProg (fuel : Nat) (ops : List Op) (rt : RT) : RT :=
  match ops with
  | [] => rt
  | op :: rest => runProg fuel rest (applyOp fuel op rt).2

/-! ## The async-runtime layer: `fromPromise` (fromPromise.ts)

The cell owns three core signals (`value`, `status`, `error`), a token
counter, and the current `AbortController`.  Controllers are modelled by an
aborted-flag store indexed by creation order.  Lifecycle callbacks and
`onEvent` emissions are recorded in an invocation list (`CB`); timestamps are
not modelled.  The caller-supplied producer either returns a promise —
identified by its `(token, controller)` pair, whose settlement the
environment later delivers to `settle` — or throws synchronously. -/

/-- `isAbortError(err)` of fromPromise.ts: both disjuncts test
`err.name === "AbortError"`. -/
def isAbortError (e : JsErr) : Bool := e.isAbortNamed

/-- Recorded callback invocations and `onEvent` emissions of a cell. -/
inductive CB where
  | evStart (token : Nat)
  | evSuccess (token : Nat)
  | evError (token : Nat) (e : JsErr)
  | evCancel (token : Nat) (reason : Option Val)
  | onSuccess (v : Val)
  | onError (e : JsErr)
  | onCancel (reason : Option Val)
deriving DecidableEq, Repr

/-- The per-cell closure state of `fromPromise`: the ids of the three
signals, `currentToken`, `currentRunToken`, the current controller, and the
resolved `keepPreviousValueOnPending` option. -/
structure Cell where
  valueId : Nat
  statusId : Nat
  errorId : Nat
  token : Nat := 0
  runTok : Nat := 0
  controller : Option Nat := none
  keepPrev : Bool := true

/-- A cell's surrounding world: the core runtime holding the three signals,
the aborted flags of all controllers created so far, and the recorded
callback invocations. -/
structure ASt where
  rt : RT
  ctrls : List Bool := []
  calls : List CB := []

/-- Is controller `c` aborted? -/
def ctrlAborted (st : ASt) (c : Nat) : Bool := (st.ctrls.getD c false)

/-- `controller.abort(reason)`: set the aborted flag (the reason is only ever
passed through to the producer, which the model does not run). -/
def ctrlAbort (st : ASt) (c : Nat) : ASt :=
  { st with ctrls := st.ctrls.set c true }

/-- Allocate the three signals of a cell (`signal<T|undefined>(undefined)`,
`signal<AsyncStatus>("idle")`, `signal<E|undefined>(undefined)`) in creation
order and build the closure state. -/
def mkCell (keepPrev : Bool) (rt : RT) : Cell × RT :=
  let v := rt.nextId
  let rt1 := (applyOp 1 (.newSignal Val.undef (fun a b => a == b)) rt).2
  let rt2 := (applyOp 1 (.newSignal (Val.status .idle) (fun a b => a == b)) rt1).2
  let rt3 := (applyOp 1 (.newSignal Val.undef (fun a b => a == b)) rt2).2
  ({ valueId := v, statusId := v + 1, errorId := v + 2, keepPrev := keepPrev }, rt3)

/-- The synchronous behaviour of the caller's producer on a given run:
it returns its promise, or throws. -/
inductive ProdBeh where
  | ret
  | throwSync (e : JsErr)

/-- `run()` of fromPromise.ts: bump the token, abort the prior controller
with reason `"superseded"`, create a fresh controller, write
pending/clear-error (and clear the value unless `keepPreviousValueOnPending`)
in one batch, emit `start`, and invoke the producer.  On a synchronous
producer throw with a current token: write error status in a batch, emit and
call `onError`, drop the controller.  Otherwise the pending promise
`(myToken, controller)` is returned for later settlement. -/
def runCell (fuel : Nat) (beh : ProdBeh) (c : Cell) (st : ASt) :
    Except Err Unit × (Cell × ASt × Option (Nat × Nat)) :=
  let myToken := c.token + 1
  let c1 := { c with token := myToken, runTok := myToken }
  let st1 := match c1.controller with
    | some old => ctrlAbort st old
    | none => st
  let ctrlId := st1.ctrls.length
  let st2 := { st1 with ctrls := st1.ctrls ++ [false] }
  let c2 := { c1 with controller := some ctrlId }
  let pendBody : List Cmd :=
    [Cmd.sigSetC c2.statusId (Expr.lit (Val.status .pending)),
     Cmd.sigSetC c2.errorId (Expr.lit Val.undef)] ++
    (if c2.keepPrev then [] else [Cmd.sigSetC c2.valueId (Expr.lit Val.undef)])
  match batch fuel pendBody st2.rt with
  | (.error err, rt1) => (.error err, (c2, { st2 with rt := rt1 }, none))
  | (.ok _, rt1) =>
    let st3 := { st2 with rt := rt1, calls := st2.calls ++ [CB.evStart myToken] }
    match beh with
    | .ret => (.ok (), (c2, st3, some (myToken, ctrlId)))
    | .throwSync e =>
      if myToken ≠ c2.token then (.ok (), (c2, st3, none))
      else
        match batch fuel [Cmd.sigSetC c2.errorId (Expr.lit (Val.errv e)),
                          Cmd.sigSetC c2.statusId (Expr.lit (Val.status .error))] st3.rt with
        | (.error err, rt2) => (.error err, (c2, { st3 with rt := rt2 }, none))
        | (.ok _, rt2) =>
          let st4 := { st3 with rt := rt2,
                                calls := st3.calls ++ [CB.evError myToken e, CB.onError e] }
          let c3 := if c2.controller = some ctrlId then { c2 with controller := none } else c2
          (.ok (), (c3, st4, none))

/-- Settlement of the promise of the run identified by `(myTok, ctrlId)`,
lines 79–108 of fromPromise.ts.  A resolution gates on the token and then the
abort flag; a rejection gates on the token and then on
`controller.signal.aborted || isAbortError(err)`; all dropped settlements
leave the three signals and the callback record untouched. -/
def settle (fuel : Nat) (c : Cell) (st : ASt) (myTok ctrlId : Nat)
    (res : Except JsErr Val) : Except Err Unit × (Cell × ASt) :=
  match res with
  | .ok result =>
      if myTok ≠ c.token then (.ok (), (c, st))
      else if ctrlAborted st ctrlId then (.ok (), (c, st))
      else
        match batch fuel [Cmd.sigSetC c.valueId (Expr.lit result),
                          Cmd.sigSetC c.statusId (Expr.lit (Val.status .success))] st.rt with
        | (.error err, rt1) => (.error err, (c, { st with rt := rt1 }))
        | (.ok _, rt1) =>
          let st1 := { st with rt := rt1,
                               calls := st.calls ++ [CB.evSuccess myTok, CB.onSuccess result] }
          let c1 := if c.controller = some ctrlId then { c with controller := none } else c
          (.ok (), (c1, st1))
  | .error e =>
      if myTok ≠ c.token then (.ok (), (c, st))
      else if ctrlAborted st ctrlId ∨ isAbortError e then
        let c1 := if c.controller = some ctrlId then { c with controller := none } else c
        (.ok (), (c1, st))
      else
        match batch fuel [Cmd.sigSetC c.errorId (Expr.lit (Val.errv e)),
                          Cmd.sigSetC c.statusId (Expr.lit (Val.status .error))] st.rt with
        | (.error err, rt1) => (.error err, (c, { st with rt := rt1 }))
        | (.ok _, rt1) =>
          let st1 := { st with rt := rt1,
                               calls := st.calls ++ [CB.evError myTok e, CB.onError e] }
          let c1 := if c.controller = some ctrlId then { c with controller := none } else c
          (.ok (), (c1, st1))

/-- `cancel(reason?)` of fromPromise.ts: no-op without a live controller,
otherwise abort it, set `status = "cancelled"` in a batch (leaving value and
error untouched), emit `cancel`, call `onCancel`, and drop the controller. -/
def cancelCell (fuel : Nat) (c : Cell) (st : ASt) (reason : Option Val) :
    Except Err Unit × (Cell × ASt) :=
  match c.controller with
  | none => (.ok (), (c, st))
  | some ctrlId =>
    if ctrlAborted st ctrlId then (.ok (), (c, st))
    else
      let st1 := ctrlAbort st ctrlId
      match batch fuel [Cmd.sigSetC c.statusId (Expr.lit (Val.status .cancelled))] st1.rt with
      | (.error err, rt1) => (.error err, (c, { st1 with rt := rt1 }))
      | (.ok _, rt1) =>
        let st2 := { st1 with rt := rt1,
                              calls := st1.calls ++ [CB.evCancel c.token reason,
                                                     CB.onCancel reason] }
        let c1 := if c.controller = some ctrlId then { c with controller := none } else c
        (.ok (), (c1, st2))

/-! ## Basic lemmas about the state primitives -/

theorem getN_updN (rt : RT) (i j : Nat) (f : Node → Node) :
    (rt.updN i f).getN j = if j = i then f (rt.getN i) else rt.getN j := by
  unfold RT.updN RT.getN
  by_cases h : j = i <;> simp [h]

@[simp] theorem getN_updN_self (rt : RT) (i : Nat) (f : Node → Node) :
    (rt.updN i f).getN i = f (rt.getN i) := by simp [getN_updN]

theorem getN_updN_other (rt : RT) (i j : Nat) (f : Node → Node) (h : j ≠ i) :
    (rt.updN i f).getN j = rt.getN j := by simp [getN_updN, h]

@[simp] theorem updN_nextId (rt : RT) (i : Nat) (f : Node → Node) :
    (rt.updN i f).nextId = rt.nextId := rfl

@[simp] theorem updN_computeQ (rt : RT) (i : Nat) (f : Node → Node) :
    (rt.updN i f).computeQ = rt.computeQ := rfl

@[simp] theorem updN_effectQ (rt : RT) (i : Nat) (f : Node → Node) :
    (rt.updN i f).effectQ = rt.effectQ := rfl

@[simp] theorem updN_atomicLogs (rt : RT) (i : Nat) (f : Node → Node) :
    (rt.updN i f).atomicLogs = rt.atomicLogs := rfl

@[simp] theorem updN_atomicDepth (rt : RT) (i : Nat) (f : Node → Node) :
    (rt.updN i f).atomicDepth = rt.atomicDepth := rfl

@[simp] theorem updN_trace (rt : RT) (i : Nat) (f : Node → Node) :
    (rt.updN i f).trace = rt.trace := rfl

@[simp] theorem updN_activeEffect (rt : RT) (i : Nat) (f : Node → Node) :
    (rt.updN i f).activeEffect = rt.activeEffect := rfl

@[simp] theorem updN_currentObserver (rt : RT) (i : Nat) (f : Node → Node) :
    (rt.updN i f).currentObserver = rt.currentObserver := rfl

/-! ## C8: equality-gated writes do not propagate

signal.ts `set` returns before recording, storing or notifying whenever
`equals(prev, next)` holds, so the runtime state is bit-for-bit unchanged. -/

/-- C8: for every signal node with comparator `equals`, a `set` whose next
value satisfies `equals(prev, next)` leaves the entire runtime state
unchanged: the stored value is not overwritten, nothing is recorded in the
atomic write log, no computed subscriber is marked stale, and no effect
subscriber is scheduled. -/
theorem equal_write_is_noop (fuel i : Nat) (v : Val) (rt : RT)
    (h : (rt.getN i).equals (rt.getN i).value v = true) :
    setSignal fuel i v rt = rt := by
  unfold setSignal
  simp [h]

/-- Witness for `equal_write_is_noop` at a concrete input. -/
theorem equal_write_is_noop_witness :
    ((init.getN 0).equals (init.getN 0).value Val.undef = true) ∧
      setSignal 5 0 Val.undef init = init :=
  ⟨by decide, equal_write_is_noop 5 0 Val.undef init (by decide)⟩

/-! ## C2: superseded or aborted runs cannot write

In fromPromise.ts both settlement handlers gate first on
`myToken == currentToken` and then on `controller.signal.aborted`; every
dropped settlement leaves the three signals (the whole core runtime, in
fact) and the callback record untouched. -/

/-- C2: once a run is superseded (its token is no longer current) or its
controller is aborted, the settlement of its promise — resolution or
rejection alike — changes none of the cell's signals (the core runtime is
untouched) and invokes neither `onSuccess` nor `onError` (the callback
record is unchanged); the settlement itself returns silently. -/
theorem superseded_settlement_drops (fuel : Nat) (c : Cell) (st : ASt)
    (tok ctrl : Nat) (res : Except JsErr Val)
    (h : tok ≠ c.token ∨ ctrlAborted st ctrl = true) :
    (settle fuel c st tok ctrl res).2.2.rt = st.rt ∧
    (settle fuel c st tok ctrl res).2.2.calls = st.calls ∧
    (settle fuel c st tok ctrl res).1 = Except.ok () := by
  by_cases ht : tok = c.token
  · have ha : ctrlAborted st ctrl = true := by
      rcases h with h | h
      · exact absurd ht h
      · exact h
    cases res <;> simp [settle, ht, ha]
  · cases res <;> simp [settle, ht]

/-- Witness for `superseded_settlement_drops` at a concrete input. -/
theorem superseded_settlement_drops_witness :
    ((5 : Nat) ≠ ({ valueId := 0, statusId := 1, errorId := 2 } : Cell).token ∨
        ctrlAborted { rt := init } 0 = true) ∧
      ((settle 10 { valueId := 0, statusId := 1, errorId := 2 } { rt := init } 5 0
          (.ok (Val.int 3))).2.2.rt = ASt.rt { rt := init } ∧
        (settle 10 { valueId := 0, statusId := 1, errorId := 2 } { rt := init } 5 0
          (.ok (Val.int 3))).2.2.calls = ASt.calls { rt := init } ∧
        (settle 10 { valueId := 0, statusId := 1, errorId := 2 } { rt := init } 5 0
          (.ok (Val.int 3))).1 = Except.ok ()) :=
  ⟨Or.inl (by decide),
   superseded_settlement_drops 10 { valueId := 0, statusId := 1, errorId := 2 }
     { rt := init } 5 0 (.ok (Val.int 3)) (Or.inl (by decide))⟩

/-! ## C7: abort-style rejections never become errors

The rejection handler of fromPromise.ts drops silently when the controller
is aborted or the rejection's `name` is `"AbortError"`; `cancel()` leaves
`value`/`error` untouched and sets only `status = "cancelled"`.  The concrete
scenario below is run → cancel("0") → late AbortError rejection. -/

/-- The cell of the abort scenario: `fromPromise` with default options. -/
def abortDemo0 : Cell × RT := mkCell true init

/-- The abort scenario after `run()` (producer returns its promise). -/
def abortDemoRun : Except Err Unit × (Cell × ASt × Option (Nat × Nat)) :=
  runCell 30 ProdBeh.ret abortDemo0.1 { rt := abortDemo0.2 }

/-- The abort scenario after `cancel(0)`. -/
def abortDemoCancel : Except Err Unit × (Cell × ASt) :=
  cancelCell 30 abortDemoRun.2.1 abortDemoRun.2.2.1 (some (Val.int 0))

/-- The abort scenario after the cancelled run's promise rejects with an
error named `AbortError`. -/
def abortDemoSettle : Except Err Unit × (Cell × ASt) :=
  settle 30 abortDemoCancel.2.1 abortDemoCancel.2.2 1 0 (.error ⟨true, 3⟩)

/-- C7: (general part) a rejection whose error is abort-named or whose run's
controller is aborted never transitions the cell to the error status, leaves
`error()` (and every signal) unchanged and never invokes `onError`; (scenario
part) a cell cancelled while pending is in status `cancelled`, and after the
late `AbortError` rejection of the cancelled run it still is, with `error()`
unset and with a callback record containing no `onError` call. -/
theorem abort_rejection_never_errors (fuel : Nat) (c : Cell) (st : ASt)
    (tok ctrl : Nat) (e : JsErr)
    (h : ctrlAborted st ctrl = true ∨ isAbortError e = true) :
    ((settle fuel c st tok ctrl (.error e)).2.2.rt = st.rt ∧
     (settle fuel c st tok ctrl (.error e)).2.2.calls = st.calls ∧
     (settle fuel c st tok ctrl (.error e)).1 = Except.ok ()) ∧
    ((abortDemoCancel.2.2.rt.getN 1).value = Val.status .cancelled ∧
     (abortDemoSettle.2.2.rt.getN 1).value = Val.status .cancelled ∧
     (abortDemoSettle.2.2.rt.getN 2).value = Val.undef ∧
     abortDemoSettle.2.2.calls =
       [CB.evStart 1, CB.evCancel 1 (some (Val.int 0)), CB.onCancel (some (Val.int 0))]) := by
  refine ⟨?_, by decide, by decide, by decide, by decide⟩
  by_cases ht : tok = c.token
  · rcases h with h | h <;> simp [settle, ht, h]
  · simp [settle, ht]

/-- Witness for `abort_rejection_never_errors` at a concrete input. -/
theorem abort_rejection_never_errors_witness :
    (ctrlAborted abortDemoCancel.2.2 0 = true ∨ isAbortError ⟨true, 3⟩ = true) ∧
      (((settle 30 abortDemoCancel.2.1 abortDemoCancel.2.2 1 0
            (.error ⟨true, 3⟩)).2.2.rt = abortDemoCancel.2.2.rt ∧
        (settle 30 abortDemoCancel.2.1 abortDemoCancel.2.2 1 0
            (.error ⟨true, 3⟩)).2.2.calls = abortDemoCancel.2.2.calls ∧
        (settle 30 abortDemoCancel.2.1 abortDemoCancel.2.2 1 0
            (.error ⟨true, 3⟩)).1 = Except.ok ()) ∧
       ((abortDemoCancel.2.2.rt.getN 1).value = Val.status .cancelled ∧
        (abortDemoSettle.2.2.rt.getN 1).value = Val.status .cancelled ∧
        (abortDemoSettle.2.2.rt.getN 2).value = Val.undef ∧
        abortDemoSettle.2.2.calls =
          [CB.evStart 1, CB.evCancel 1 (some (Val.int 0)), CB.onCancel (some (Val.int 0))])) :=
  ⟨Or.inr (by decide),
   abort_rejection_never_errors 30 abortDemoCancel.2.1 abortDemoCancel.2.2 1 0
     ⟨true, 3⟩ (Or.inr (by decide))⟩

/-! ## Frame lemmas for the graph primitives -/

theorem getN_addEdge (rt : RT) (f t j : Nat) :
    (addEdge rt f t).getN j =
      (let n := rt.getN j
       let n1 := if j = f then { n with deps := n.deps ++ [t] } else n
       if j = t then { n1 with subs := n1.subs ++ [f] } else n1) := rfl

theorem getN_unlink (rt : RT) (f t j : Nat) :
    (unlink rt f t).getN j =
      (let n := rt.getN j
       let n1 := if j = f then { n with deps := n.deps.erase t } else n
       if j = t then { n1 with subs := n1.subs.erase f } else n1) := rfl

theorem addEdge_keepsFields (rt : RT) (f t j : Nat) :
    ((addEdge rt f t).getN j).kind = (rt.getN j).kind ∧
    ((addEdge rt f t).getN j).value = (rt.getN j).value ∧
    ((addEdge rt f t).getN j).computing = (rt.getN j).computing ∧
    ((addEdge rt f t).getN j).stale = (rt.getN j).stale ∧
    ((addEdge rt f t).getN j).hasValue = (rt.getN j).hasValue ∧
    ((addEdge rt f t).getN j).disposed = (rt.getN j).disposed ∧
    ((addEdge rt f t).getN j).registered = (rt.getN j).registered ∧
    ((addEdge rt f t).getN j).jobKind = (rt.getN j).jobKind := by
  simp only [getN_addEdge]
  split <;> split <;> simp

theorem unlink_keepsFields (rt : RT) (f t j : Nat) :
    ((unlink rt f t).getN j).kind = (rt.getN j).kind ∧
    ((unlink rt f t).getN j).value = (rt.getN j).value ∧
    ((unlink rt f t).getN j).computing = (rt.getN j).computing ∧
    ((unlink rt f t).getN j).stale = (rt.getN j).stale ∧
    ((unlink rt f t).getN j).hasValue = (rt.getN j).hasValue ∧
    ((unlink rt f t).getN j).disposed = (rt.getN j).disposed ∧
    ((unlink rt f t).getN j).registered = (rt.getN j).registered ∧
    ((unlink rt f t).getN j).jobKind = (rt.getN j).jobKind := by
  simp only [getN_unlink]
  split <;> split <;> simp

@[simp] theorem addEdge_nextId (rt : RT) (f t : Nat) : (addEdge rt f t).nextId = rt.nextId := rfl
@[simp] theorem unlink_nextId (rt : RT) (f t : Nat) : (unlink rt f t).nextId = rt.nextId := rfl
@[simp] theorem addEdge_currentObserver (rt : RT) (f t : Nat) :
    (addEdge rt f t).currentObserver = rt.currentObserver := rfl
@[simp] theorem unlink_currentObserver (rt : RT) (f t : Nat) :
    (unlink rt f t).currentObserver = rt.currentObserver := rfl

theorem scheduleJob_getN (rt : RT) (j k : Nat) :
    (scheduleJob rt j).getN k = rt.getN k := by
  unfold scheduleJob
  split
  · rfl
  · split
    · rfl
    · cases hk : (rt.getN j).jobKind.getD JobKind.effect <;>
        simp only [hk] <;> split <;> rfl

/-- Preservation of a predicate along a fold (the shape of every subscriber
loop in the source). -/
theorem foldlPres {α : Type} (P : RT → Prop) (f : RT → α → RT)
    (h : ∀ rt a, P rt → P (f rt a)) :
    ∀ (l : List α) (rt : RT), P rt → P (l.foldl f rt) := by
  intro l
  induction l with
  | nil => intro rt hP; exact hP
  | cons a l ih => intro rt hP; exact ih _ (h _ _ hP)

theorem track_pair (rt : RT) (dep : Nat) :
    track rt dep = (.ok (), rt) ∨
    (∃ obs, rt.currentObserver = some obs ∧ track rt dep = link rt obs dep) := by
  unfold track
  cases h : rt.currentObserver with
  | none => exact Or.inl rfl
  | some obs => exact Or.inr ⟨obs, rfl, rfl⟩

theorem link_cases (rt : RT) (f t : Nat) :
    (link rt f t).2 = rt ∨ (link rt f t).2 = addEdge rt f t := by
  unfold link
  split
  · exact Or.inl rfl
  · split
    · exact Or.inl rfl
    · exact Or.inr rfl


/-! ## Unfolding equations for the fueled interpreter -/

theorem interpExpr_lit (fuel : Nat) (v : Val) (rt : RT) :
    interpExpr (fuel + 1) (.lit v) rt = (.ok v, rt) := rfl

theorem interpExpr_sigGet (fuel i0 : Nat) (rt : RT) :
    interpExpr (fuel + 1) (.sigGet i0) rt =
      (if i0 < rt.nextId ∧ (rt.getN i0).kind = Kind.signal then
         match track rt i0 with
         | (.error err, rt1) => (.error err, rt1)
         | (.ok _, rt1) => (.ok ((rt1.getN i0).value), rt1)
       else (.error .badOp, rt)) := rfl

theorem interpExpr_compGet (fuel j : Nat) (rt : RT) :
    interpExpr (fuel + 1) (.compGet j) rt = compGet fuel j rt := rfl

theorem interpExpr_add (fuel : Nat) (a b : Expr) (rt : RT) :
    interpExpr (fuel + 1) (.add a b) rt =
      (match interpExpr fuel a rt with
       | (.error err, rt1) => (.error err, rt1)
       | (.ok va, rt1) =>
         match interpExpr fuel b rt1 with
         | (.error err, rt2) => (.error err, rt2)
         | (.ok vb, rt2) => (.ok (valAdd va vb), rt2)) := rfl

theorem interpExpr_ifPos (fuel : Nat) (c t e : Expr) (rt : RT) :
    interpExpr (fuel + 1) (.ifPos c t e) rt =
      (match interpExpr fuel c rt with
       | (.error err, rt1) => (.error err, rt1)
       | (.ok vc, rt1) =>
         if valPos vc then interpExpr fuel t rt1 else interpExpr fuel e rt1) := rfl

theorem interpExpr_throwE (fuel code : Nat) (rt : RT) :
    interpExpr (fuel + 1) (.throwE code) rt = (.error (.user code), rt) := rfl

theorem interpExpr_zero (e : Expr) (rt : RT) :
    interpExpr 0 e rt = (.error .oof, rt) := rfl

theorem compGet_succ (fuel i : Nat) (rt : RT) :
    compGet (fuel + 1) i rt =
      (if (rt.getN i).kind = Kind.computed then
        match track rt i with
        | (.error err, rt1) => (.error err, rt1)
        | (.ok _, rt1) =>
          if (rt1.getN i).stale ∨ (rt1.getN i).hasValue = false then
            match recompute fuel i rt1 with
            | (.error err, rt2) => (.error err, rt2)
            | (.ok _, rt2) => (.ok ((rt2.getN i).value), rt2)
          else (.ok ((rt1.getN i).value), rt1)
      else (.error .badOp, rt)) := rfl

theorem compGet_zero (i : Nat) (rt : RT) : compGet 0 i rt = (.error .oof, rt) := rfl

theorem recompute_succ (fuel i : Nat) (rt : RT) :
    recompute (fuel + 1) i rt =
      (if (rt.getN i).computing then (.error .cycle, rt)
       else
         let rt1 := rt.updN i (fun n => { n with computing := true })
         let rt2 := ((rt1.getN i).deps).foldl (fun acc d => unlink acc i d) rt1
         let prevObs := rt2.currentObserver
         let rt3 := { rt2 with currentObserver := some i }
         match interpExpr fuel ((rt3.getN i).cbody) rt3 with
         | (.error err, rt4) => (.error err, { rt4 with currentObserver := prevObs })
         | (.ok next, rt4) =>
             let rt5 := { rt4 with currentObserver := prevObs }
             let n := rt5.getN i
             let rt6 := if n.hasValue = false ∨ n.equals n.value next = false
                        then rt5.updN i (fun m => { m with value := next, hasValue := true })
                        else rt5
             let rt7 := rt6.updN i (fun m => { m with stale := false, computing := false })
             (.ok (), { rt7 with trace := rt7.trace ++ [.recomputed i] })) := rfl

theorem recompute_zero (i : Nat) (rt : RT) : recompute 0 i rt = (.error .oof, rt) := rfl

theorem interpCmds_nil (fuel : Nat) (rt : RT) :
    interpCmds (fuel + 1) [] rt = (.ok (), rt) := rfl

theorem interpCmds_cons (fuel : Nat) (c : Cmd) (rest : List Cmd) (rt : RT) :
    interpCmds (fuel + 1) (c :: rest) rt =
      (match interpCmd fuel c rt with
       | (.error err, rt1) => (.error err, rt1)
       | (.ok _, rt1) => interpCmds fuel rest rt1) := rfl

theorem interpCmds_zero (cs : List Cmd) (rt : RT) :
    interpCmds 0 cs rt = (.error .oof, rt) := rfl

theorem interpCmd_sigSetC (fuel i : Nat) (e : Expr) (rt : RT) :
    interpCmd (fuel + 1) (.sigSetC i e) rt =
      (if i < rt.nextId ∧ (rt.getN i).kind = Kind.signal then
        match interpExpr fuel e rt with
        | (.error err, rt1) => (.error err, rt1)
        | (.ok v, rt1) => (.ok (), setSignal fuel i v rt1)
      else (.error .badOp, rt)) := rfl

theorem interpCmd_evalC (fuel : Nat) (e : Expr) (rt : RT) :
    interpCmd (fuel + 1) (.evalC e) rt =
      (match interpExpr fuel e rt with
       | (.error err, rt1) => (.error err, rt1)
       | (.ok _, rt1) => (.ok (), rt1)) := rfl

theorem interpCmd_cleanupC (fuel cid : Nat) (rt : RT) :
    interpCmd (fuel + 1) (.cleanupC cid) rt =
      (match rt.activeEffect with
       | none => (.ok (), rt)
       | some eid =>
           (.ok (), rt.updN eid (fun n => { n with cleanups := n.cleanups ++ [cid] }))) := rfl

theorem interpCmd_mkEffectC (fuel : Nat) (body : List Cmd) (rt : RT) :
    interpCmd (fuel + 1) (.mkEffectC body) rt =
      runEffect fuel rt.nextId
        { rt with nextId := rt.nextId + 1,
                  nodes := fun j => if j = rt.nextId then
                      { kind := Kind.effect, ebody := body, registered := true }
                    else rt.nodes j } := rfl

theorem interpCmd_throwC (fuel code : Nat) (rt : RT) :
    interpCmd (fuel + 1) (.throwC code) rt = (.error (.user code), rt) := rfl

theorem interpCmd_zero (c : Cmd) (rt : RT) : interpCmd 0 c rt = (.error .oof, rt) := rfl

theorem runEffect_succ (fuel eid : Nat) (rt : RT) :
    runEffect (fuel + 1) eid rt =
      (if (rt.getN eid).disposed then (.ok (), rt)
       else
         let rt1 := rt.updN eid (fun n => { n with cleanups := [] })
         let rt2 := ((rt1.getN eid).deps).foldl (fun acc d => unlink acc eid d) rt1
         let prevObs := rt2.currentObserver
         let rt3 := { rt2 with activeEffect := some eid,
                               currentObserver := some eid,
                               trace := rt2.trace ++ [.effStart eid] }
         match interpCmds fuel ((rt3.getN eid).ebody) rt3 with
         | (.error err, rt4) =>
             (.error err, { rt4 with currentObserver := prevObs, activeEffect := none })
         | (.ok _, rt4) =>
             (.ok (), { rt4 with currentObserver := prevObs,
                                 activeEffect := none,
                                 trace := rt4.trace ++ [.effDone eid] })) := rfl

theorem runEffect_zero (eid : Nat) (rt : RT) : runEffect 0 eid rt = (.error .oof, rt) := rfl

theorem markStale_succ (fuel i : Nat) (rt : RT) :
    markStale (fuel + 1) i rt =
      (if (rt.getN i).kind ≠ Kind.computed then rt
       else if (rt.getN i).stale then rt
       else
         let rt1 := rt.updN i (fun n => { n with stale := true })
         ((rt1.getN i).subs).foldl (fun acc s =>
           match (acc.getN s).kind with
           | .computed => markStale fuel s acc
           | .effect => if (acc.getN s).registered then scheduleJob acc s else acc
           | .signal => acc) rt1) := rfl

theorem markStale_zero (i : Nat) (rt : RT) : markStale 0 i rt = rt := rfl

theorem phaseA_succ (fuel : Nat) (rt : RT) :
    phaseA (fuel + 1) rt =
      (if rt.computeQ = [] then (.ok (), rt)
       else
         let batchJ := rt.computeQ
         let rt1 := { rt with computeQ := [] }
         match runJobs fuel JobKind.computed batchJ rt1 with
         | (.error err, rt2) => (.error err, rt2)
         | (.ok _, rt2) => phaseA fuel rt2) := rfl

theorem flushLoop_succ (fuel guard : Nat) (rt : RT) :
    flushLoop (fuel + 1) guard rt =
      (if rt.computeQ = [] ∧ rt.effectQ = [] then (.ok (), rt)
       else if 10000 < guard + 1 then (.error .infinite, rt)
       else
         match phaseA fuel rt with
         | (.error err, rt1) => (.error err, rt1)
         | (.ok _, rt1) =>
           if rt1.effectQ = [] then flushLoop fuel (guard + 1) rt1
           else
             let sorted := sortJobs rt1 rt1.effectQ
             let rt2 := { rt1 with effectQ := [] }
             match runJobs fuel JobKind.effect sorted rt2 with
             | (.error err, rt3) => (.error err, rt3)
             | (.ok _, rt3) => flushLoop fuel (guard + 1) rt3) := rfl


/-! ## The `computing` flag is never lowered by expression evaluation -/

theorem track_keepsCS (i : Nat) (rt : RT) (dep : Nat) :
    (((track rt dep).2).getN i).computing = (rt.getN i).computing ∧
    (((track rt dep).2).getN i).stale = (rt.getN i).stale := by
  rcases track_pair rt dep with h | ⟨obs, _, h⟩
  · rw [h]
    exact ⟨rfl, rfl⟩
  · rw [h]
    rcases link_cases rt obs dep with h2 | h2 <;> rw [h2]
    · exact ⟨rfl, rfl⟩
    · exact ⟨(addEdge_keepsFields rt obs dep i).2.2.1,
             (addEdge_keepsFields rt obs dep i).2.2.2.1⟩

/-- Once a node's `computing` flag is raised, no expression evaluation lowers
it (the only `computing := false` write is the success path of that node's own
`recompute`, which the cycle guard makes unreachable), and the node's `stale`
flag is untouched. -/
theorem interpKeepsCS (i : Nat) : ∀ fuel : Nat,
    (∀ e rt, (rt.getN i).computing = true →
       (((interpExpr fuel e rt).2).getN i).computing = true ∧
       (((interpExpr fuel e rt).2).getN i).stale = (rt.getN i).stale) ∧
    (∀ j rt, (rt.getN i).computing = true →
       (((compGet fuel j rt).2).getN i).computing = true ∧
       (((compGet fuel j rt).2).getN i).stale = (rt.getN i).stale) ∧
    (∀ j rt, (rt.getN i).computing = true →
       (((recompute fuel j rt).2).getN i).computing = true ∧
       (((recompute fuel j rt).2).getN i).stale = (rt.getN i).stale) := by
  intro fuel
  induction fuel with
  | zero =>
      refine ⟨?_, ?_, ?_⟩ <;> (intro _ rt h; exact ⟨h, rfl⟩)
  | succ fuel ih =>
    obtain ⟨ih1, ih2, ih3⟩ := ih
    refine ⟨?_, ?_, ?_⟩
    · intro e rt h
      cases e with
      | lit v => rw [interpExpr_lit]; exact ⟨h, rfl⟩
      | sigGet i0 =>
          rw [interpExpr_sigGet]
          split
          · rcases htk : track rt i0 with ⟨r, rt1⟩
            have ht := track_keepsCS i rt i0
            rw [htk] at ht
            cases r <;> exact ⟨ht.1.trans h, ht.2⟩
          · exact ⟨h, rfl⟩
      | compGet j => rw [interpExpr_compGet]; exact ih2 j rt h
      | add a b =>
          rw [interpExpr_add]
          rcases h1 : interpExpr fuel a rt with ⟨r1, rt1⟩
          have ha := ih1 a rt h
          rw [h1] at ha
          cases r1 with
          | error err => exact ⟨ha.1, ha.2⟩
          | ok va =>
            dsimp only
            rcases h2 : interpExpr fuel b rt1 with ⟨r2, rt2⟩
            have hb := ih1 b rt1 ha.1
            rw [h2] at hb
            cases r2 <;> exact ⟨hb.1, hb.2.trans ha.2⟩
      | ifPos c t e0 =>
          rw [interpExpr_ifPos]
          rcases h1 : interpExpr fuel c rt with ⟨r1, rt1⟩
          have hc := ih1 c rt h
          rw [h1] at hc
          cases r1 with
          | error err => exact ⟨hc.1, hc.2⟩
          | ok vc =>
            dsimp only
            split
            · have hx := ih1 t rt1 hc.1
              exact ⟨hx.1, hx.2.trans hc.2⟩
            · have hx := ih1 e0 rt1 hc.1
              exact ⟨hx.1, hx.2.trans hc.2⟩
      | throwE code => rw [interpExpr_throwE]; exact ⟨h, rfl⟩
    · intro j rt h
      rw [compGet_succ]
      split
      · rcases htk : track rt j with ⟨r, rt1⟩
        have ht := track_keepsCS i rt j
        rw [htk] at ht
        cases r with
        | error err => exact ⟨ht.1.trans h, ht.2⟩
        | ok u =>
          dsimp only
          split
          · rcases hrc : recompute fuel j rt1 with ⟨r2, rt2⟩
            have h2 := ih3 j rt1 (ht.1.trans h)
            rw [hrc] at h2
            cases r2 <;> exact ⟨h2.1, h2.2.trans ht.2⟩
          · exact ⟨ht.1.trans h, ht.2⟩
      · exact ⟨h, rfl⟩
    · intro j rt h
      rw [recompute_succ]
      split
      · exact ⟨h, rfl⟩
      · rename_i hnc
        have hij : i ≠ j := by
          intro he
          subst he
          exact hnc h
        dsimp only
        generalize hA :
          ((rt.updN j (fun n => { n with computing := true })).getN j).deps.foldl
            (fun acc d => unlink acc j d)
            (rt.updN j (fun n => { n with computing := true })) = rtB
        have hB : (rtB.getN i).computing = true ∧ (rtB.getN i).stale = (rt.getN i).stale := by
          rw [← hA]
          refine foldlPres
            (fun s => (s.getN i).computing = true ∧ (s.getN i).stale = (rt.getN i).stale)
            (fun acc d => unlink acc j d) ?_ _ _ ?_
          · intro s' d hs'
            exact ⟨(unlink_keepsFields s' j d i).2.2.1.trans hs'.1,
                   (unlink_keepsFields s' j d i).2.2.2.1.trans hs'.2⟩
          · dsimp only
            rw [getN_updN_other rt j i _ hij]
            exact ⟨h, rfl⟩
        rcases hI : interpExpr fuel
            ((({ rtB with currentObserver := some j } : RT).getN j).cbody)
            ({ rtB with currentObserver := some j } : RT) with ⟨r, rt4⟩
        have hbody := ih1 ((({ rtB with currentObserver := some j } : RT).getN j).cbody)
            ({ rtB with currentObserver := some j } : RT) hB.1
        rw [hI] at hbody
        have h4 : (rt4.getN i).computing = true ∧ (rt4.getN i).stale = (rt.getN i).stale := by
          cases r <;> exact ⟨hbody.1, hbody.2.trans hB.2⟩
        cases r with
        | error err => exact h4
        | ok next =>
            dsimp only
            split <;>
            · simp only [RT.getN, RT.updN]
              simp only [if_neg hij]
              exact h4


/-! ## C5: what a CycleDetected throw leaves behind -/

theorem foldUnlink_keepsCS (j : Nat) (l : List Nat) (s : RT) :
    (((l.foldl (fun acc d => unlink acc j d) s)).getN j).computing = (s.getN j).computing ∧
    (((l.foldl (fun acc d => unlink acc j d) s)).getN j).stale = (s.getN j).stale := by
  refine foldlPres
    (fun x => (x.getN j).computing = (s.getN j).computing ∧
              (x.getN j).stale = (s.getN j).stale)
    (fun acc d => unlink acc j d) ?_ l s ⟨rfl, rfl⟩
  intro s1 d hs1
  exact ⟨(unlink_keepsFields s1 j d j).2.2.1.trans hs1.1,
         (unlink_keepsFields s1 j d j).2.2.2.1.trans hs1.2⟩

/-- C5 (amended): when `recompute` throws — in particular on CycleDetected —
the node is left with `computing = true` (the guard is never reset on the
error path, there being no try/finally) and `stale` unchanged (still `true`
in the cycle scenario); consequently every later `get()` on such a node
raises CycleDetected again instead of retrying. -/
theorem cycleDetected_leaves_computing (fuel j : Nat) (rt : RT) (e : Err) (rt2 : RT)
    (hrun : recompute (fuel + 1) j rt = (.error e, rt2)) :
    ((rt2.getN j).computing = true ∧ (rt2.getN j).stale = (rt.getN j).stale) ∧
    (∀ g : Nat, ∀ s : RT, (s.getN j).kind = Kind.computed → (s.getN j).computing = true →
       (s.getN j).stale = true → s.currentObserver = none →
       (compGet (g + 2) j s).1 = Except.error Err.cycle) := by
  constructor
  · rw [recompute_succ] at hrun
    by_cases hc : (rt.getN j).computing = true
    · rw [if_pos hc] at hrun
      rw [Prod.mk.injEq] at hrun
      rw [← hrun.2]
      exact ⟨hc, rfl⟩
    · rw [if_neg hc] at hrun
      dsimp only at hrun
      set rtB :=
        ((rt.updN j (fun n => { n with computing := true })).getN j).deps.foldl
          (fun acc d => unlink acc j d)
          (rt.updN j (fun n => { n with computing := true })) with hAB
      have hBcs : (rtB.getN j).computing = true ∧ (rtB.getN j).stale = (rt.getN j).stale := by
        rw [hAB]
        refine ⟨(foldUnlink_keepsCS j _ _).1.trans ?_, (foldUnlink_keepsCS j _ _).2.trans ?_⟩
        · rw [getN_updN_self]
        · rw [getN_updN_self]
      rcases hI : interpExpr fuel
          ((({ rtB with currentObserver := some j } : RT).getN j).cbody)
          ({ rtB with currentObserver := some j } : RT) with ⟨r, rt4⟩
      rw [hI] at hrun
      have hk := (interpKeepsCS j fuel).1
          ((({ rtB with currentObserver := some j } : RT).getN j).cbody)
          ({ rtB with currentObserver := some j } : RT) hBcs.1
      rw [hI] at hk
      cases r with
      | ok u => simp at hrun
      | error err =>
          rw [Prod.mk.injEq] at hrun
          rw [← hrun.2]
          exact ⟨hk.1, hk.2.trans hBcs.2⟩
  · intro g s hkind hcomp hstale hobs
    rw [compGet_succ]
    have htr : track s j = (.ok (), s) := by
      unfold track
      rw [hobs]
    rw [if_pos hkind, htr]
    dsimp only
    rw [if_pos (Or.inl hstale), recompute_succ, if_pos hcomp]

/-- The concrete conditional self-cycle scenario of C5: signal 0 holds 1, and
computed 1 reads itself exactly when signal 0 is positive. -/
def cycleDemoPre : List Op :=
  [.newSignal (Val.int 1) (fun a b => a == b),
   .newComputed (Expr.ifPos (Expr.sigGet 0) (Expr.compGet 1) (Expr.lit (Val.int 5)))
     (fun a b => a == b)]

/-- The state after building the conditional self-cycle scenario. -/
def cycleDemoRT : RT := runProg 15 cycleDemoPre init

/-- Witness for `cycleDetected_leaves_computing` at a concrete input. -/
theorem cycleDetected_leaves_computing_witness :
    recompute 14 1 cycleDemoRT = (.error Err.cycle, (recompute 14 1 cycleDemoRT).2) ∧
      ((((recompute 14 1 cycleDemoRT).2.getN 1).computing = true ∧
        ((recompute 14 1 cycleDemoRT).2.getN 1).stale = ((cycleDemoRT.getN 1)).stale) ∧
       (∀ g : Nat, ∀ s : RT, (s.getN 1).kind = Kind.computed → (s.getN 1).computing = true →
          (s.getN 1).stale = true → s.currentObserver = none →
          (compGet (g + 2) 1 s).1 = Except.error Err.cycle)) :=
  ⟨rfl, cycleDetected_leaves_computing 13 1 cycleDemoRT Err.cycle
      (recompute 14 1 cycleDemoRT).2 rfl⟩

/-- C5 (counterexample): on the conditional self-cycle, `get()` raises
CycleDetected, but afterwards `computing` is `true` — not `false` as the
claim states — and after making the cycle condition false (signal 0 := 0,
under which the body would plainly return 5) a retrying `get()` still raises
CycleDetected instead of recomputing. -/
theorem cycle_retry_counterexample :
    (applyOp 15 (.compGetTop 1) cycleDemoRT).1 = .error .cycle ∧
    ((applyOp 15 (.compGetTop 1) cycleDemoRT).2.getN 1).computing = true ∧
    ((applyOp 15 (.compGetTop 1) cycleDemoRT).2.getN 1).stale = true ∧
    (applyOp 15 (.compGetTop 1)
      (runProg 15 (cycleDemoPre ++ [.compGetTop 1, .setTop 0 (Val.int 0)]) init)).1 =
      .error .cycle := by
  refine ⟨by decide, by decide, by decide, by decide⟩


/-! ## C3: when do stale computeds recompute? -/

theorem recompute_ok_post (fuel i : Nat) (rt rt2 : RT)
    (h : recompute fuel i rt = (.ok (), rt2)) :
    (rt2.getN i).stale = false ∧ (rt2.getN i).computing = false ∧
    (rt2.getN i).hasValue = true := by
  match fuel with
  | 0 => simp [recompute_zero] at h
  | fuel + 1 =>
    rw [recompute_succ] at h
    split at h
    · simp at h
    · dsimp only at h
      set rtB :=
        ((rt.updN i (fun n => { n with computing := true })).getN i).deps.foldl
          (fun acc d => unlink acc i d)
          (rt.updN i (fun n => { n with computing := true })) with hAB
      rcases hI : interpExpr fuel
          ((({ rtB with currentObserver := some i } : RT).getN i).cbody)
          ({ rtB with currentObserver := some i } : RT) with ⟨r, rt4⟩
      rw [hI] at h
      cases r with
      | error err => simp at h
      | ok next =>
          dsimp only at h
          rw [Prod.mk.injEq] at h
          rw [← h.2]
          split
          · refine ⟨?_, ?_, ?_⟩ <;> simp [RT.getN, RT.updN]
          · rename_i hcond
            refine ⟨?_, ?_, ?_⟩ <;> simp only [RT.getN, RT.updN] <;> simp
            rcases not_or.mp hcond with ⟨h1, _⟩
            simpa [RT.getN] using h1

/-- C3 (amended): a computed's value is pulled, not pushed: whenever `get()`
returns, the node has been brought up to date at the moment of the read — it
is no longer stale, holds a value, and the returned value is the stored one.
In a flush this read happens during the effect's run (see
`stale_computed_recomputes_inside_effect_run`), not strictly before it. -/
theorem compGet_returns_fresh (fuel i : Nat) (rt : RT) (v : Val) (rt2 : RT)
    (h : compGet fuel i rt = (.ok v, rt2)) :
    (rt2.getN i).stale = false ∧ (rt2.getN i).hasValue = true ∧
    (rt2.getN i).value = v := by
  match fuel with
  | 0 => simp [compGet_zero] at h
  | fuel + 1 =>
    rw [compGet_succ] at h
    split at h
    · rcases htk : track rt i with ⟨r, rt1⟩
      rw [htk] at h
      cases r with
      | error err => simp at h
      | ok u =>
          dsimp only at h
          split at h
          · rcases hrc : recompute fuel i rt1 with ⟨r2, rt3⟩
            rw [hrc] at h
            cases r2 with
            | error err => simp at h
            | ok u2 =>
                rw [Prod.mk.injEq] at h
                obtain ⟨hv, hst⟩ := h
                have hp := recompute_ok_post fuel i rt1 rt3 hrc
                subst hst
                injection hv with hv
                exact ⟨hp.1, hp.2.2, hv⟩
          · rename_i hcond
            rw [Prod.mk.injEq] at h
            obtain ⟨hv, hst⟩ := h
            subst hst
            injection hv with hv
            rcases not_or.mp hcond with ⟨h1, h2⟩
            exact ⟨Bool.not_eq_true _ |>.mp h1, Bool.not_eq_false _ |>.mp h2, hv⟩
    · simp at h

/-- The C3 diamond-free scenario: signal 0, computed 1 := signal 0 + 1, and
effect 2 reading computed 1; then signal 0 := 5 marks computed 1 stale and
schedules effect 2, arming a flush. -/
def pullDemoPre : List Op :=
  [.newSignal (Val.int 1) (fun a b => a == b),
   .newComputed (Expr.add (Expr.sigGet 0) (Expr.lit (Val.int 1))) (fun a b => a == b),
   .newEffect [Cmd.evalC (Expr.compGet 1)],
   .setTop 0 (Val.int 5)]

/-- The C3 scenario including the armed flush (the microtask firing). -/
def pullDemoProg : List Op := pullDemoPre ++ [.microtask]

/-- Does some occurrence of `a` (the first one) precede an occurrence of `b`
in the trace? -/
def occursBefore (tr : List Ev) (a b : Ev) : Bool :=
  match tr with
  | [] => false
  | x :: rest => if x = a then b ∈ rest else occursBefore rest a b

/-- Witness for `compGet_returns_fresh` at a concrete input. -/
theorem compGet_returns_fresh_witness :
    compGet 15 1 (runProg 15 pullDemoPre init) =
        (.ok (Val.int 6), (compGet 15 1 (runProg 15 pullDemoPre init)).2) ∧
      (((compGet 15 1 (runProg 15 pullDemoPre init)).2.getN 1).stale = false ∧
       ((compGet 15 1 (runProg 15 pullDemoPre init)).2.getN 1).hasValue = true ∧
       ((compGet 15 1 (runProg 15 pullDemoPre init)).2.getN 1).value = Val.int 6) :=
  ⟨rfl, compGet_returns_fresh 15 1 (runProg 15 pullDemoPre init) (Val.int 6)
      (compGet 15 1 (runProg 15 pullDemoPre init)).2 rfl⟩

/-- C3 (counterexample): computed 1 is stale when the flush is entered, yet
within the flush the recomputation of computed 1 does NOT precede the start
of effect 2 — the effect starts first and the recomputation happens inside
its run.  The trace of the armed flush is exactly
`[flushStart, effStart 2, recomputed 1, effDone 2]`. -/
theorem stale_computed_recomputes_inside_effect_run :
    ((runProg 15 pullDemoPre init).getN 1).stale = true ∧
    (runProg 15 pullDemoPre init).scheduled = true ∧
    occursBefore ((runProg 15 pullDemoProg init).trace.drop 4)
      (.recomputed 1) (.effStart 2) = false ∧
    occursBefore ((runProg 15 pullDemoProg init).trace.drop 4)
      (.effStart 2) (.recomputed 1) = true ∧
    (runProg 15 pullDemoProg init).trace.drop 3 =
      [.flushStart, .effStart 2, .recomputed 1, .effDone 2] := by
  refine ⟨by decide, by decide, by decide, by decide, by decide⟩


/-! ## C6: the active-effect reference across effect runs -/

/-- C6 (amended): an effect run installs itself as the process-wide
active-effect reference, but on every exit path — normal return or throw —
it resets the reference to `null`, not to the previous value; hence after a
nested effect's run the enclosing effect is no longer the active effect. -/
theorem runEffect_resets_activeEffect_to_null (fuel eid : Nat) (rt : RT)
    (h : (rt.getN eid).disposed = false) :
    ((runEffect (fuel + 1) eid rt).2).activeEffect = none := by
  rw [runEffect_succ, if_neg (by simp [h])]
  dsimp only
  set rtB :=
    ((rt.updN eid (fun n => { n with cleanups := [] })).getN eid).deps.foldl
      (fun acc d => unlink acc eid d)
      (rt.updN eid (fun n => { n with cleanups := [] })) with hAB
  rcases hI : interpCmds fuel
      ((({ rtB with activeEffect := some eid,
                    currentObserver := some eid,
                    trace := rtB.trace ++ [.effStart eid] } : RT).getN eid).ebody)
      ({ rtB with activeEffect := some eid,
                  currentObserver := some eid,
                  trace := rtB.trace ++ [.effStart eid] } : RT) with ⟨r, rt4⟩
  cases r <;> rfl

/-- Witness for `runEffect_resets_activeEffect_to_null` at a concrete
input. -/
theorem runEffect_resets_activeEffect_to_null_witness :
    (((runProg 12 [.newEffect [Cmd.cleanupC 7]] init).getN 0).disposed = false) ∧
      ((runEffect (11 + 1) 0 (runProg 12 [.newEffect [Cmd.cleanupC 7]] init)).2).activeEffect =
        none :=
  ⟨by decide,
   runEffect_resets_activeEffect_to_null 11 0
     (runProg 12 [.newEffect [Cmd.cleanupC 7]] init) (by decide)⟩

/-- The nested-effect scenario of C6: the outer effect's body creates a
nested effect and then calls `onCleanup(7)`. -/
def nestedCleanupProg : List Op := [.newEffect [Cmd.mkEffectC [], Cmd.cleanupC 7]]

set_option maxHeartbeats 12000000 in
/-- C6 (counterexample): after the nested effect's run, the `onCleanup(7)`
call in the remainder of the enclosing effect's body is a no-op — the
enclosing effect's cleanup list stays empty — whereas without the nested
effect the same call collects the cleanup.  So the run does not restore the
previous active-effect reference. -/
theorem nested_effect_drops_enclosing_cleanup :
    ((runProg 12 nestedCleanupProg init).getN 0).cleanups = [] ∧
    ((runProg 12 [.newEffect [Cmd.cleanupC 7]] init).getN 0).cleanups = [7] := by
  refine ⟨by decide, by decide⟩

/-! ## C4: a throwing effect aborts the rest of the flush wave -/

/-- C4 (amended): inside one Phase-B wave, a throw from an effect's user
function propagates out (`runJobs`, and with it `flushJobsTwoPhase`, returns
the error): the jobs before the throwing one have run, the wave's remaining
jobs never run — the result state is exactly the state at the moment of the
throw, and the drained queue is not restored. -/
theorem runJobs_error_drops_rest (fuel : Nat) (k : JobKind) (js1 : List Nat)
    (j : Nat) (js2 : List Nat) (rt rt1 rt2 : RT) (e : Err)
    (h1 : runJobs fuel k js1 rt = (.ok (), rt1))
    (h2 : runEffect fuel j (rt1.updN j (fun n => { n with jobKind := some k })) =
        (.error e, rt2)) :
    runJobs fuel k (js1 ++ j :: js2) rt = (.error e, rt2) := by
  induction js1 generalizing rt with
  | nil =>
      unfold runJobs at h1
      rw [Prod.mk.injEq] at h1
      rw [List.nil_append]
      unfold runJobs
      dsimp only
      rw [h1.2, h2]
  | cons a as ih =>
      rw [List.cons_append]
      unfold runJobs at h1 ⊢
      dsimp only at h1 ⊢
      rcases hra : runEffect fuel a (rt.updN a (fun n => { n with jobKind := some k }))
        with ⟨r, rtA⟩
      rw [hra] at h1
      cases r with
      | error err => simp at h1
      | ok u => exact ih rtA h1

/-- The C4 scenario: two effects subscribe to signal 0; effect 1 throws after
reading.  A write schedules both; the armed flush is then fired. -/
def throwingWavePre : List Op :=
  [.newSignal (Val.int 0) (fun a b => a == b),
   .newEffect [Cmd.evalC (Expr.sigGet 0), Cmd.throwC 9],
   .newEffect [Cmd.evalC (Expr.sigGet 0)],
   .setTop 0 (Val.int 1)]

/-- Witness for `runJobs_error_drops_rest` at a concrete input. -/
theorem runJobs_error_drops_rest_witness :
    (runJobs 14 JobKind.effect [] (runProg 15 throwingWavePre init) =
        (.ok (), runProg 15 throwingWavePre init)) ∧
    (runEffect 14 1
        ((runProg 15 throwingWavePre init).updN 1
          (fun n => { n with jobKind := some JobKind.effect })) =
      (.error (.user 9),
        (runEffect 14 1
          ((runProg 15 throwingWavePre init).updN 1
            (fun n => { n with jobKind := some JobKind.effect }))).2)) ∧
    runJobs 14 JobKind.effect ([] ++ 1 :: [2]) (runProg 15 throwingWavePre init) =
      (.error (.user 9),
        (runEffect 14 1
          ((runProg 15 throwingWavePre init).updN 1
            (fun n => { n with jobKind := some JobKind.effect }))).2) :=
  ⟨rfl, rfl,
   runJobs_error_drops_rest 14 JobKind.effect [] 1 [2]
     (runProg 15 throwingWavePre init) (runProg 15 throwingWavePre init)
     (runEffect 14 1
       ((runProg 15 throwingWavePre init).updN 1
         (fun n => { n with jobKind := some JobKind.effect }))).2
     (.user 9) rfl rfl⟩

/-- C4 (counterexample): effects 1 and 2 are both queued before the flush;
the flush propagates effect 1's error — but effect 2 never runs (the trace
after `flushStart` is exactly `[effStart 1]`) and the queue is left empty, so
the claim's "the other effects that were queued before the flush still run"
is false. -/
theorem thrown_effect_skips_queued_effects :
    (runProg 15 throwingWavePre init).effectQ = [1, 2] ∧
    (applyOp 15 .microtask (runProg 15 throwingWavePre init)).1 = .error (.user 9) ∧
    (applyOp 15 .microtask (runProg 15 throwingWavePre init)).2.trace.drop 3 =
      [.flushStart, .effStart 1] ∧
    (applyOp 15 .microtask (runProg 15 throwingWavePre init)).2.effectQ = [] := by
  refine ⟨by decide, by decide, by decide, by decide⟩


/-! ## The reachable-state invariant (C9, C10)

`Inv` packages the dual-edge discipline of graph.ts (each edge `A → B` is in
`A.deps` iff it is in `B.subs`, and at most once), the allocation discipline
(nodes beyond `nextId` are untouched default slots, edges and queue/log
entries only mention allocated nodes, the observer and active-effect
references are allocated), and the scheduler facts behind C10: the compute
queue is empty and no job ever carries kind `'computed'`. -/
structure Inv (rt : RT) : Prop where
  edge : ∀ a b, b ∈ (rt.getN a).deps ↔ a ∈ (rt.getN b).subs
  depsNodup : ∀ a, (rt.getN a).deps.Nodup
  subsNodup : ∀ a, (rt.getN a).subs.Nodup
  alloc : ∀ a, rt.nextId ≤ a → rt.getN a = nodeDefault
  edgeBound : ∀ a b, b ∈ (rt.getN a).deps → a < rt.nextId ∧ b < rt.nextId
  cqEmpty : rt.computeQ = []
  eqBound : ∀ j, j ∈ rt.effectQ → j < rt.nextId
  jkOK : ∀ a, (rt.getN a).jobKind ≠ some JobKind.computed
  obsBound : ∀ o, rt.currentObserver = some o → o < rt.nextId
  actBound : ∀ o, rt.activeEffect = some o → o < rt.nextId
  logBound : ∀ L, L ∈ rt.atomicLogs → ∀ p : Nat × Val, p ∈ L → p.1 < rt.nextId

theorem Inv.kindBound {rt : RT} (hI : Inv rt) {i : Nat}
    (h : (rt.getN i).kind ≠ Kind.signal) : i < rt.nextId := by
  by_contra hge
  push_neg at hge
  rw [hI.alloc i hge] at h
  exact h rfl

theorem Inv.subBound {rt : RT} (hI : Inv rt) {i s : Nat}
    (h : s ∈ (rt.getN i).subs) : s < rt.nextId :=
  ((hI.edgeBound s i) ((hI.edge s i).mpr h)).1

theorem inv_init : Inv init := by
  refine ⟨?_, ?_, ?_, ?_, ?_, rfl, ?_, ?_, ?_, ?_, ?_⟩ <;>
    simp [init, RT.getN, nodeDefault]

/-- Node updates that keep a node's edge sets and never introduce a
computed job kind preserve the invariant (and everything but the heap). -/
theorem inv_updN {rt : RT} (hI : Inv rt) (i : Nat) (f : Node → Node)
    (hio : i < rt.nextId)
    (hd : (f (rt.getN i)).deps = (rt.getN i).deps)
    (hs : (f (rt.getN i)).subs = (rt.getN i).subs)
    (hk : (f (rt.getN i)).jobKind ≠ some JobKind.computed) :
    Inv (rt.updN i f) := by
  have hget : ∀ j, ((rt.updN i f).getN j).deps = (rt.getN j).deps := by
    intro j
    rw [getN_updN]
    split
    · rename_i hji; subst hji; rw [hd]
    · rfl
  have hgets : ∀ j, ((rt.updN i f).getN j).subs = (rt.getN j).subs := by
    intro j
    rw [getN_updN]
    split
    · rename_i hji; subst hji; rw [hs]
    · rfl
  refine ⟨?_, ?_, ?_, ?_, ?_, hI.cqEmpty, hI.eqBound, ?_, hI.obsBound, hI.actBound,
    hI.logBound⟩
  · intro a b
    rw [hget a, hgets b]
    exact hI.edge a b
  · intro a
    rw [hget a]
    exact hI.depsNodup a
  · intro a
    rw [hgets a]
    exact hI.subsNodup a
  · intro a ha
    rw [updN_nextId] at ha
    rw [getN_updN]
    split
    · rename_i hai
      subst hai
      exact absurd hio (by omega)
    · exact hI.alloc a ha
  · intro a b hb
    rw [hget a] at hb
    exact hI.edgeBound a b hb
  · intro a
    rw [getN_updN]
    split
    · exact hk
    · exact hI.jkOK a

theorem inv_addEdge {rt : RT} (hI : Inv rt) {f t : Nat}
    (hf : f < rt.nextId) (ht : t < rt.nextId)
    (hnew : t ∉ (rt.getN f).deps) :
    Inv (addEdge rt f t) := by
  have hfn : f ∉ (rt.getN t).subs := fun hmem => hnew ((hI.edge f t).mpr hmem)
  have hdeps : ∀ j, ((addEdge rt f t).getN j).deps =
      if j = f then (rt.getN j).deps ++ [t] else (rt.getN j).deps := by
    intro j
    rw [getN_addEdge]
    split <;> split <;> simp
  have hsubs : ∀ j, ((addEdge rt f t).getN j).subs =
      if j = t then (rt.getN j).subs ++ [f] else (rt.getN j).subs := by
    intro j
    rw [getN_addEdge]
    split <;> split <;> simp_all
  refine ⟨?_, ?_, ?_, ?_, ?_, hI.cqEmpty, ?_, ?_, ?_, ?_, ?_⟩
  · intro a b
    rw [hdeps a, hsubs b]
    by_cases haf : a = f
    · by_cases hbt : b = t
      · rw [if_pos haf, if_pos hbt, haf, hbt]
        simp
      · rw [if_pos haf, if_neg hbt, haf]
        constructor
        · intro hb
          rcases List.mem_append.mp hb with hb2 | hb2
          · exact (hI.edge f b).mp hb2
          · simp at hb2
            exact absurd hb2 hbt
        · intro hmem
          exact List.mem_append_left _ ((hI.edge f b).mpr hmem)
    · by_cases hbt : b = t
      · rw [if_neg haf, if_pos hbt, hbt]
        constructor
        · intro hb
          exact List.mem_append_left _ ((hI.edge a t).mp hb)
        · intro hmem
          rcases List.mem_append.mp hmem with hm2 | hm2
          · exact (hI.edge a t).mpr hm2
          · simp at hm2
            exact absurd hm2 haf
      · rw [if_neg haf, if_neg hbt]
        exact hI.edge a b
  · intro a
    rw [hdeps a]
    split
    · rename_i haf
      rw [haf]
      refine (hI.depsNodup f).append (List.nodup_singleton t) ?_
      simpa using hnew
    · exact hI.depsNodup a
  · intro a
    rw [hsubs a]
    split
    · rename_i hat
      rw [hat]
      refine (hI.subsNodup t).append (List.nodup_singleton f) ?_
      simpa using hfn
    · exact hI.subsNodup a
  · intro a ha
    rw [addEdge_nextId] at ha
    have haf : a ≠ f := by omega
    have hat : a ≠ t := by omega
    rw [getN_addEdge]
    dsimp only
    rw [if_neg haf, if_neg hat]
    exact hI.alloc a ha
  · intro a b hb
    rw [addEdge_nextId]
    rw [hdeps a] at hb
    split at hb
    · rename_i haf
      rcases List.mem_append.mp hb with hb2 | hb2
      · exact hI.edgeBound a b hb2
      · simp at hb2
        subst hb2
        rw [haf]
        exact ⟨hf, ht⟩
    · exact hI.edgeBound a b hb
  · intro j hj
    rw [addEdge_nextId]
    exact hI.eqBound j hj
  · intro a
    rw [(addEdge_keepsFields rt f t a).2.2.2.2.2.2.2]
    exact hI.jkOK a
  · intro o ho
    rw [addEdge_nextId]
    exact hI.obsBound o ho
  · intro o ho
    rw [addEdge_nextId]
    exact hI.actBound o ho
  · intro L hL p hp
    rw [addEdge_nextId]
    exact hI.logBound L hL p hp

theorem inv_unlink {rt : RT} (hI : Inv rt) (f t : Nat) : Inv (unlink rt f t) := by
  have hdeps : ∀ j, ((unlink rt f t).getN j).deps =
      if j = f then (rt.getN j).deps.erase t else (rt.getN j).deps := by
    intro j
    rw [getN_unlink]
    split <;> split <;> simp
  have hsubs : ∀ j, ((unlink rt f t).getN j).subs =
      if j = t then (rt.getN j).subs.erase f else (rt.getN j).subs := by
    intro j
    rw [getN_unlink]
    split <;> split <;> simp_all
  refine ⟨?_, ?_, ?_, ?_, ?_, hI.cqEmpty, ?_, ?_, ?_, ?_, ?_⟩
  · intro a b
    rw [hdeps a, hsubs b]
    by_cases haf : a = f
    · by_cases hbt : b = t
      · rw [if_pos haf, if_pos hbt, haf, hbt]
        rw [(hI.depsNodup f).mem_erase_iff, (hI.subsNodup t).mem_erase_iff]
        constructor
        · rintro ⟨hne, _⟩
          exact absurd rfl hne
        · rintro ⟨hne, _⟩
          exact absurd rfl hne
      · rw [if_pos haf, if_neg hbt, haf]
        rw [(hI.depsNodup f).mem_erase_iff]
        constructor
        · rintro ⟨_, hmem⟩
          exact (hI.edge f b).mp hmem
        · intro hmem
          exact ⟨hbt, (hI.edge f b).mpr hmem⟩
    · by_cases hbt : b = t
      · rw [if_neg haf, if_pos hbt, hbt]
        rw [(hI.subsNodup t).mem_erase_iff]
        constructor
        · intro hmem
          exact ⟨haf, (hI.edge a t).mp hmem⟩
        · rintro ⟨_, hmem⟩
          exact (hI.edge a t).mpr hmem
      · rw [if_neg haf, if_neg hbt]
        exact hI.edge a b
  · intro a
    rw [hdeps a]
    split
    · exact (hI.depsNodup a).erase t
    · exact hI.depsNodup a
  · intro a
    rw [hsubs a]
    split
    · exact (hI.subsNodup a).erase f
    · exact hI.subsNodup a
  · intro a ha
    rw [unlink_nextId] at ha
    rw [getN_unlink, hI.alloc a ha]
    dsimp only
    split <;> split <;> rfl
  · intro a b hb
    rw [unlink_nextId]
    rw [hdeps a] at hb
    split at hb
    · exact hI.edgeBound a b (List.mem_of_mem_erase hb)
    · exact hI.edgeBound a b hb
  · intro j hj
    rw [unlink_nextId]
    exact hI.eqBound j hj
  · intro a
    rw [(unlink_keepsFields rt f t a).2.2.2.2.2.2.2]
    exact hI.jkOK a
  · intro o ho
    rw [unlink_nextId]
    exact hI.obsBound o ho
  · intro o ho
    rw [unlink_nextId]
    exact hI.actBound o ho
  · intro L hL p hp
    rw [unlink_nextId]
    exact hI.logBound L hL p hp

theorem inv_link {rt : RT} (hI : Inv rt) {f t : Nat}
    (hf : f < rt.nextId) (ht : t < rt.nextId) : Inv ((link rt f t).2) := by
  unfold link
  split
  · exact hI
  · split
    · exact hI
    · rename_i hnew
      exact inv_addEdge hI hf ht hnew

theorem link_nextId (rt : RT) (f t : Nat) : ((link rt f t).2).nextId = rt.nextId := by
  unfold link
  split
  · rfl
  · split <;> rfl

theorem inv_track {rt : RT} (hI : Inv rt) {dep : Nat}
    (hdep : dep < rt.nextId) : Inv ((track rt dep).2) := by
  unfold track
  cases ho : rt.currentObserver with
  | none => exact hI
  | some obs => exact inv_link hI (hI.obsBound obs ho) hdep

theorem track_nextId (rt : RT) (dep : Nat) : ((track rt dep).2).nextId = rt.nextId := by
  unfold track
  cases rt.currentObserver with
  | none => rfl
  | some obs => exact link_nextId rt obs dep

theorem mem_qAdd {q : List Nat} {j a : Nat} (h : a ∈ qAdd q j) : a ∈ q ∨ a = j := by
  unfold qAdd at h
  split at h
  · exact Or.inl h
  · rcases List.mem_append.mp h with h | h
    · exact Or.inl h
    · simp at h
      exact Or.inr h

theorem scheduleJob_nextId (rt : RT) (j : Nat) : (scheduleJob rt j).nextId = rt.nextId := by
  unfold scheduleJob
  split
  · rfl
  · split
    · rfl
    · cases (rt.getN j).jobKind.getD JobKind.effect <;> simp only [] <;> split <;> rfl

theorem scheduleJob_computeQ {rt : RT} (hjk : (rt.getN j).jobKind ≠ some JobKind.computed) :
    (scheduleJob rt j).computeQ = rt.computeQ := by
  unfold scheduleJob
  split
  · rfl
  · split
    · rfl
    · cases hk : (rt.getN j).jobKind with
      | none => simp only [hk, Option.getD_none] <;> split <;> rfl
      | some k =>
          cases k with
          | computed => exact absurd hk hjk
          | effect => simp only [hk, Option.getD_some] <;> split <;> rfl

theorem inv_scheduleJob {rt : RT} (hI : Inv rt) {j : Nat} (hj : j < rt.nextId) :
    Inv (scheduleJob rt j) := by
  have hq : (scheduleJob rt j).computeQ = rt.computeQ := scheduleJob_computeQ (hI.jkOK j)
  have hgetN : ∀ k, (scheduleJob rt j).getN k = rt.getN k := fun k => scheduleJob_getN rt j k
  have hn : (scheduleJob rt j).nextId = rt.nextId := scheduleJob_nextId rt j
  have heq : ∀ a, a ∈ (scheduleJob rt j).effectQ → a < rt.nextId := by
    intro a ha
    unfold scheduleJob at ha
    split at ha
    · exact hI.eqBound a ha
    · split at ha
      · exact hI.eqBound a ha
      · cases hk : (rt.getN j).jobKind.getD JobKind.effect <;> simp only [hk] at ha
        · split at ha <;> exact hI.eqBound a ha
        · split at ha <;>
          · rcases mem_qAdd ha with h | h
            · exact hI.eqBound a h
            · exact h ▸ hj
  have hlog : (scheduleJob rt j).atomicLogs = rt.atomicLogs := by
    unfold scheduleJob
    split
    · rfl
    · split
      · rfl
      · cases (rt.getN j).jobKind.getD JobKind.effect <;> simp only [] <;> split <;> rfl
  have hobs : (scheduleJob rt j).currentObserver = rt.currentObserver := by
    unfold scheduleJob
    split
    · rfl
    · split
      · rfl
      · cases (rt.getN j).jobKind.getD JobKind.effect <;> simp only [] <;> split <;> rfl
  have hact : (scheduleJob rt j).activeEffect = rt.activeEffect := by
    unfold scheduleJob
    split
    · rfl
    · split
      · rfl
      · cases (rt.getN j).jobKind.getD JobKind.effect <;> simp only [] <;> split <;> rfl
  refine ⟨?_, ?_, ?_, ?_, ?_, ?_, ?_, ?_, ?_, ?_, ?_⟩
  · intro a b
    rw [hgetN a, hgetN b]
    exact hI.edge a b
  · intro a
    rw [hgetN a]
    exact hI.depsNodup a
  · intro a
    rw [hgetN a]
    exact hI.subsNodup a
  · intro a ha
    rw [hn] at ha
    rw [hgetN a]
    exact hI.alloc a ha
  · intro a b hb
    rw [hn]
    rw [hgetN a] at hb
    exact hI.edgeBound a b hb
  · rw [hq]
    exact hI.cqEmpty
  · intro a ha
    rw [hn]
    exact heq a ha
  · intro a
    rw [hgetN a]
    exact hI.jkOK a
  · intro o ho
    rw [hobs] at ho
    rw [hn]
    exact hI.obsBound o ho
  · intro o ho
    rw [hact] at ho
    rw [hn]
    exact hI.actBound o ho
  · intro L hL p hp
    rw [hlog] at hL
    rw [hn]
    exact hI.logBound L hL p hp

theorem foldlPresMem {α : Type} (P : RT → Prop) (f : RT → α → RT) :
    ∀ (l : List α), (∀ rt a, a ∈ l → P rt → P (f rt a)) →
      ∀ (rt : RT), P rt → P (l.foldl f rt) := by
  intro l
  induction l with
  | nil => intro _ rt hP; exact hP
  | cons a l ih =>
      intro h rt hP
      exact ih (fun s b hb hs => h s b (List.mem_cons_of_mem a hb) hs) _
        (h rt a (List.mem_cons_self a l) hP)

theorem inv_recordAtomicWrite {rt : RT} (hI : Inv rt) {i : Nat} (hi : i < rt.nextId)
    (prev : Val) : Inv (recordAtomicWrite rt i prev) := by
  unfold recordAtomicWrite
  split
  · exact hI
  · rename_i log rest hlogs
    split
    · exact hI
    · refine ⟨hI.edge, hI.depsNodup, hI.subsNodup, hI.alloc, hI.edgeBound, hI.cqEmpty,
        hI.eqBound, hI.jkOK, hI.obsBound, hI.actBound, ?_⟩
      intro L hL p hp
      simp only [List.mem_cons] at hL
      rcases hL with hL | hL
      · subst hL
        rcases List.mem_append.mp hp with hp | hp
        · exact hI.logBound log (by rw [hlogs]; exact List.mem_cons_self log rest) p hp
        · simp at hp
          rw [hp]
          exact hi
      · exact hI.logBound L (by rw [hlogs]; exact List.mem_cons_of_mem log hL) p hp

theorem recordAtomicWrite_nextId (rt : RT) (i : Nat) (prev : Val) :
    (recordAtomicWrite rt i prev).nextId = rt.nextId := by
  unfold recordAtomicWrite
  split
  · rfl
  · split <;> rfl

theorem recordAtomicWrite_getN (rt : RT) (i : Nat) (prev : Val) (k : Nat) :
    (recordAtomicWrite rt i prev).getN k = rt.getN k := by
  unfold recordAtomicWrite
  split
  · rfl
  · split <;> rfl

/-- The invariant survives the subscriber dispatch of `markStale` — the
`markStale` case handled by the inductive hypothesis. -/
theorem inv_markStale : ∀ fuel i {rt : RT}, Inv rt →
    Inv (markStale fuel i rt) ∧ (markStale fuel i rt).nextId = rt.nextId := by
  intro fuel
  induction fuel with
  | zero => intro i rt hI; exact ⟨hI, rfl⟩
  | succ fuel ih =>
      intro i rt hI
      rw [markStale_succ]
      split
      · exact ⟨hI, rfl⟩
      · split
        · exact ⟨hI, rfl⟩
        · rename_i hkind _
          push_neg at hkind
          have hik : i < rt.nextId := hI.kindBound (by rw [hkind]; decide)
          have hI1 : Inv (rt.updN i (fun n => { n with stale := true })) := by
            refine inv_updN hI i _ hik rfl rfl ?_
            exact hI.jkOK i
          refine foldlPresMem
            (fun s => Inv s ∧ s.nextId = rt.nextId) _ _ ?_ _ ⟨hI1, rfl⟩
          intro s a ha ⟨hsI, hsn⟩
          have hab : a < s.nextId := by
            rw [hsn]
            exact hI1.subBound ha
          split
          · exact ⟨(ih a hsI).1, ((ih a hsI).2).trans hsn⟩
          · split
            · exact ⟨inv_scheduleJob hsI hab, (scheduleJob_nextId s a).trans hsn⟩
            · exact ⟨hsI, hsn⟩
          · exact ⟨hsI, hsn⟩

theorem setSignal_eq (fuel i : Nat) (v : Val) (rt : RT) :
    setSignal fuel i v rt =
      (if (rt.getN i).equals (rt.getN i).value v then rt
       else
         let rt1 := if inAtomic rt then recordAtomicWrite rt i (rt.getN i).value else rt
         let rt2 := rt1.updN i (fun m => { m with value := v })
         if (rt2.getN i).subs = [] then rt2
         else ((rt2.getN i).subs).foldl (fun acc s =>
           match (acc.getN s).kind with
           | .effect => if (acc.getN s).registered then scheduleJob acc s else acc
           | .computed => markStale fuel s acc
           | .signal => acc) rt2) := rfl

theorem inv_setSignal (fuel : Nat) {rt : RT} (hI : Inv rt) {i : Nat}
    (hi : i < rt.nextId) (v : Val) :
    Inv (setSignal fuel i v rt) ∧ (setSignal fuel i v rt).nextId = rt.nextId := by
  rw [setSignal_eq]
  by_cases heq : (rt.getN i).equals (rt.getN i).value v = true
  · rw [if_pos heq]
    exact ⟨hI, rfl⟩
  · rw [if_neg heq]
    dsimp only
    set rt1 := if inAtomic rt then recordAtomicWrite rt i (rt.getN i).value else rt with h1
    have hI1 : Inv rt1 ∧ rt1.nextId = rt.nextId := by
      rw [h1]
      split
      · exact ⟨inv_recordAtomicWrite hI hi _, recordAtomicWrite_nextId rt i _⟩
      · exact ⟨hI, rfl⟩
    set rt2 := rt1.updN i (fun m => { m with value := v }) with h2
    have hI2 : Inv rt2 ∧ rt2.nextId = rt.nextId := by
      rw [h2]
      refine ⟨inv_updN hI1.1 i _ (by rw [hI1.2]; exact hi) rfl rfl (hI1.1.jkOK i), ?_⟩
      rw [updN_nextId]
      exact hI1.2
    by_cases hsub : (rt2.getN i).subs = []
    · rw [if_pos hsub]
      exact hI2
    · rw [if_neg hsub]
      refine foldlPresMem (fun s => Inv s ∧ s.nextId = rt.nextId) _ _ ?_ _ hI2
      intro s a ha ⟨hsI, hsn⟩
      have hab : a < s.nextId := by
        rw [hsn, ← hI2.2]
        exact hI2.1.subBound ha
      split
      · split
        · exact ⟨inv_scheduleJob hsI hab, (scheduleJob_nextId s a).trans hsn⟩
        · exact ⟨hsI, hsn⟩
      · exact ⟨(inv_markStale fuel a hsI).1, ((inv_markStale fuel a hsI).2).trans hsn⟩
      · exact ⟨hsI, hsn⟩

/-- The invariant ignores `scheduled`, `batchDepth`, `atomicDepth`, `muted`
and `trace`: any state agreeing on the other components inherits it. -/
theorem inv_of_parts {rt rt' : RT} (hI : Inv rt)
    (hn : rt'.nodes = rt.nodes) (hid : rt'.nextId = rt.nextId)
    (hc : rt'.computeQ = rt.computeQ) (he : rt'.effectQ = rt.effectQ)
    (ho : rt'.currentObserver = rt.currentObserver)
    (ha : rt'.activeEffect = rt.activeEffect)
    (hl : rt'.atomicLogs = rt.atomicLogs) : Inv rt' := by
  have hg : ∀ i, rt'.getN i = rt.getN i := by
    intro i
    unfold RT.getN
    rw [hn]
  refine ⟨?_, ?_, ?_, ?_, ?_, ?_, ?_, ?_, ?_, ?_, ?_⟩
  · intro a b
    rw [hg a, hg b]
    exact hI.edge a b
  · intro a
    rw [hg a]
    exact hI.depsNodup a
  · intro a
    rw [hg a]
    exact hI.subsNodup a
  · intro a hge
    rw [hid] at hge
    rw [hg a]
    exact hI.alloc a hge
  · intro a b hb
    rw [hid]
    rw [hg a] at hb
    exact hI.edgeBound a b hb
  · rw [hc]
    exact hI.cqEmpty
  · intro j hj
    rw [hid]
    rw [he] at hj
    exact hI.eqBound j hj
  · intro a
    rw [hg a]
    exact hI.jkOK a
  · intro o ho2
    rw [hid]
    rw [ho] at ho2
    exact hI.obsBound o ho2
  · intro o ho2
    rw [hid]
    rw [ha] at ho2
    exact hI.actBound o ho2
  · intro L hL p hp
    rw [hid]
    rw [hl] at hL
    exact hI.logBound L hL p hp

theorem inv_withObs {rt : RT} (hI : Inv rt) (o : Option Nat)
    (hb : ∀ x, o = some x → x < rt.nextId) :
    Inv { rt with currentObserver := o } := by
  refine ⟨hI.edge, hI.depsNodup, hI.subsNodup, hI.alloc, hI.edgeBound, hI.cqEmpty,
    hI.eqBound, hI.jkOK, ?_, hI.actBound, hI.logBound⟩
  intro x hx
  exact hb x hx

theorem inv_withTrace {rt : RT} (hI : Inv rt) (t : List Ev) :
    Inv { rt with trace := t } :=
  ⟨hI.edge, hI.depsNodup, hI.subsNodup, hI.alloc, hI.edgeBound, hI.cqEmpty,
   hI.eqBound, hI.jkOK, hI.obsBound, hI.actBound, hI.logBound⟩

theorem inv_withSchedTrace {rt : RT} (hI : Inv rt) (b : Bool) (t : List Ev) :
    Inv { rt with scheduled := b, trace := t } :=
  ⟨hI.edge, hI.depsNodup, hI.subsNodup, hI.alloc, hI.edgeBound, hI.cqEmpty,
   hI.eqBound, hI.jkOK, hI.obsBound, hI.actBound, hI.logBound⟩

/-- Invariant preservation and next-id stability for expression evaluation,
computed reads and recomputation. -/
theorem invExprAll : ∀ fuel : Nat,
    (∀ e rt, Inv rt → Inv ((interpExpr fuel e rt).2) ∧
       ((interpExpr fuel e rt).2).nextId = rt.nextId) ∧
    (∀ i rt, Inv rt → Inv ((compGet fuel i rt).2) ∧
       ((compGet fuel i rt).2).nextId = rt.nextId) ∧
    (∀ i rt, Inv rt → i < rt.nextId → Inv ((recompute fuel i rt).2) ∧
       ((recompute fuel i rt).2).nextId = rt.nextId) := by
  intro fuel
  induction fuel with
  | zero =>
      refine ⟨?_, ?_, ?_⟩
      · intro _ rt h
        exact ⟨h, rfl⟩
      · intro _ rt h
        exact ⟨h, rfl⟩
      · intro _ rt h _
        exact ⟨h, rfl⟩
  | succ fuel ih =>
    obtain ⟨ih1, ih2, ih3⟩ := ih
    refine ⟨?_, ?_, ?_⟩
    · intro e rt hI
      cases e with
      | lit v => rw [interpExpr_lit]; exact ⟨hI, rfl⟩
      | sigGet i0 =>
          rw [interpExpr_sigGet]
          split
          · rename_i hg
            rcases htk : track rt i0 with ⟨r, rt1⟩
            have hti : Inv ((track rt i0).2) := inv_track hI hg.1
            have htn : ((track rt i0).2).nextId = rt.nextId := track_nextId rt i0
            rw [htk] at hti htn
            cases r <;> exact ⟨hti, htn⟩
          · exact ⟨hI, rfl⟩
      | compGet j => rw [interpExpr_compGet]; exact ih2 j rt hI
      | add a b =>
          rw [interpExpr_add]
          rcases h1 : interpExpr fuel a rt with ⟨r1, rt1⟩
          have ha := ih1 a rt hI
          rw [h1] at ha
          cases r1 with
          | error err => exact ha
          | ok va =>
            dsimp only
            rcases h2 : interpExpr fuel b rt1 with ⟨r2, rt2⟩
            have hb := ih1 b rt1 ha.1
            rw [h2] at hb
            cases r2 <;> exact ⟨hb.1, hb.2.trans ha.2⟩
      | ifPos c t e0 =>
          rw [interpExpr_ifPos]
          rcases h1 : interpExpr fuel c rt with ⟨r1, rt1⟩
          have hc := ih1 c rt hI
          rw [h1] at hc
          cases r1 with
          | error err => exact hc
          | ok vc =>
            dsimp only
            split
            · have hx := ih1 t rt1 hc.1
              exact ⟨hx.1, hx.2.trans hc.2⟩
            · have hx := ih1 e0 rt1 hc.1
              exact ⟨hx.1, hx.2.trans hc.2⟩
      | throwE code => rw [interpExpr_throwE]; exact ⟨hI, rfl⟩
    · intro i rt hI
      rw [compGet_succ]
      split
      · rename_i hkind
        have hib : i < rt.nextId := hI.kindBound (by rw [hkind]; decide)
        rcases htk : track rt i with ⟨r, rt1⟩
        have hti : Inv ((track rt i).2) := inv_track hI hib
        have htn : ((track rt i).2).nextId = rt.nextId := track_nextId rt i
        rw [htk] at hti htn
        cases r with
        | error err => exact ⟨hti, htn⟩
        | ok u =>
          dsimp only
          split
          · rcases hrc : recompute fuel i rt1 with ⟨r2, rt2⟩
            have h2 := ih3 i rt1 hti (by rw [htn]; exact hib)
            rw [hrc] at h2
            cases r2 <;> exact ⟨h2.1, h2.2.trans htn⟩
          · exact ⟨hti, htn⟩
      · exact ⟨hI, rfl⟩
    · intro i rt hI hib
      rw [recompute_succ]
      split
      · exact ⟨hI, rfl⟩
      · dsimp only
        set rtB :=
          ((rt.updN i (fun n => { n with computing := true })).getN i).deps.foldl
            (fun acc d => unlink acc i d)
            (rt.updN i (fun n => { n with computing := true })) with hAB
        have hIB : Inv rtB ∧ rtB.nextId = rt.nextId := by
          rw [hAB]
          refine foldlPres (fun s => Inv s ∧ s.nextId = rt.nextId)
            (fun acc d => unlink acc i d) ?_ _ _ ?_
          · intro s d hs
            exact ⟨inv_unlink hs.1 i d, (unlink_nextId s i d).trans hs.2⟩
          · refine ⟨inv_updN hI i _ hib rfl rfl (hI.jkOK i), by rw [updN_nextId]⟩
        have hI3 : Inv ({ rtB with currentObserver := some i } : RT) := by
          refine inv_withObs hIB.1 (some i) ?_
          intro x hx
          injection hx with hx
          rw [← hx, hIB.2]
          exact hib
        rcases hI4 : interpExpr fuel
            ((({ rtB with currentObserver := some i } : RT).getN i).cbody)
            ({ rtB with currentObserver := some i } : RT) with ⟨r, rt4⟩
        have hbody := ih1 ((({ rtB with currentObserver := some i } : RT).getN i).cbody)
            ({ rtB with currentObserver := some i } : RT) hI3
        rw [hI4] at hbody
        have hb4 : Inv rt4 ∧ rt4.nextId = rt.nextId := ⟨hbody.1, hbody.2.trans hIB.2⟩
        have hObs : ∀ x, rtB.currentObserver = some x → x < rt4.nextId := by
          intro x hx
          rw [hb4.2, ← hIB.2]
          exact hIB.1.obsBound x hx
        cases r with
        | error err =>
            exact ⟨inv_withObs hb4.1 _ hObs, hb4.2⟩
        | ok next =>
            dsimp only
            have hI5 : Inv ({ rt4 with currentObserver := rtB.currentObserver } : RT) :=
              inv_withObs hb4.1 _ hObs
            have h5n : ({ rt4 with currentObserver := rtB.currentObserver } : RT).nextId =
                rt.nextId := hb4.2
            split
            · have hu1 : Inv (({ rt4 with currentObserver := rtB.currentObserver } : RT).updN i
                  (fun m => { m with value := next, hasValue := true })) :=
                inv_updN hI5 i _ (by rw [h5n]; exact hib) rfl rfl (hI5.jkOK i)
              have hu2 : Inv ((({ rt4 with currentObserver := rtB.currentObserver } : RT).updN i
                  (fun m => { m with value := next, hasValue := true })).updN i
                  (fun m => { m with stale := false, computing := false })) :=
                inv_updN hu1 i _ (by rw [updN_nextId, h5n]; exact hib) rfl rfl (hu1.jkOK i)
              exact ⟨inv_withTrace hu2 _, h5n⟩
            · have hu1 : Inv (({ rt4 with currentObserver := rtB.currentObserver } : RT).updN i
                  (fun m => { m with stale := false, computing := false })) :=
                inv_updN hI5 i _ (by rw [h5n]; exact hib) rfl rfl (hI5.jkOK i)
              exact ⟨inv_withTrace hu1 _, h5n⟩

/-- Allocating a fresh node (empty edge sets, no computed job kind) at
`nextId` preserves the invariant. -/
theorem inv_allocNode {rt : RT} (hI : Inv rt) (n : Node)
    (hd : n.deps = []) (hs : n.subs = []) (hk : n.jobKind ≠ some JobKind.computed) :
    Inv { rt with nextId := rt.nextId + 1,
                  nodes := fun j => if j = rt.nextId then n else rt.nodes j } := by
  have hg : ∀ j, ({ rt with nextId := rt.nextId + 1,
                            nodes := fun j => if j = rt.nextId then n else rt.nodes j } : RT).getN j =
      if j = rt.nextId then n else rt.getN j := by
    intro j
    unfold RT.getN
    rfl
  refine ⟨?_, ?_, ?_, ?_, ?_, hI.cqEmpty, ?_, ?_, ?_, ?_, ?_⟩
  · intro a b
    rw [hg a, hg b]
    by_cases ha : a = rt.nextId <;> by_cases hb : b = rt.nextId
    · rw [if_pos ha, if_pos hb, hd, hs]
      simp
    · rw [if_pos ha, if_neg hb, hd]
      simp only [List.not_mem_nil, false_iff]
      intro hmem
      have := hI.subBound hmem
      omega
    · rw [if_neg ha, if_pos hb, hs]
      simp only [List.not_mem_nil, iff_false]
      intro hmem
      have := (hI.edgeBound a b hmem).2
      omega
    · rw [if_neg ha, if_neg hb]
      exact hI.edge a b
  · intro a
    rw [hg a]
    split
    · rw [hd]
      exact List.nodup_nil
    · exact hI.depsNodup a
  · intro a
    rw [hg a]
    split
    · rw [hs]
      exact List.nodup_nil
    · exact hI.subsNodup a
  · intro a ha
    simp only at ha
    rw [hg a]
    rw [if_neg (by omega)]
    exact hI.alloc a (by omega)
  · intro a b hb
    rw [hg a] at hb
    simp only
    split at hb
    · rw [hd] at hb
      simp at hb
    · have := hI.edgeBound a b hb
      omega
  · intro j hj
    simp only
    have := hI.eqBound j hj
    omega
  · intro a
    rw [hg a]
    split
    · exact hk
    · exact hI.jkOK a
  · intro o ho
    simp only
    have := hI.obsBound o ho
    omega
  · intro o ho
    simp only
    have := hI.actBound o ho
    omega
  · intro L hL p hp
    simp only
    have := hI.logBound L hL p hp
    omega

/-- Invariant preservation and next-id monotonicity for command execution
and effect runs. -/
theorem invCmdAll : ∀ fuel : Nat,
    (∀ cs rt, Inv rt → Inv ((interpCmds fuel cs rt).2) ∧
       rt.nextId ≤ ((interpCmds fuel cs rt).2).nextId) ∧
    (∀ c rt, Inv rt → Inv ((interpCmd fuel c rt).2) ∧
       rt.nextId ≤ ((interpCmd fuel c rt).2).nextId) ∧
    (∀ eid rt, Inv rt → eid < rt.nextId → Inv ((runEffect fuel eid rt).2) ∧
       rt.nextId ≤ ((runEffect fuel eid rt).2).nextId) := by
  intro fuel
  induction fuel with
  | zero =>
      refine ⟨?_, ?_, ?_⟩
      · intro _ rt h
        exact ⟨h, Nat.le_refl _⟩
      · intro _ rt h
        exact ⟨h, Nat.le_refl _⟩
      · intro _ rt h _
        exact ⟨h, Nat.le_refl _⟩
  | succ fuel ih =>
    obtain ⟨ihs, ihc, ihe⟩ := ih
    refine ⟨?_, ?_, ?_⟩
    · intro cs rt hI
      cases cs with
      | nil => rw [interpCmds_nil]; exact ⟨hI, Nat.le_refl _⟩
      | cons c rest =>
          rw [interpCmds_cons]
          rcases h1 : interpCmd fuel c rt with ⟨r1, rt1⟩
          have h1p := ihc c rt hI
          rw [h1] at h1p
          cases r1 with
          | error err => exact h1p
          | ok u =>
              dsimp only
              have h2p := ihs rest rt1 h1p.1
              exact ⟨h2p.1, Nat.le_trans h1p.2 h2p.2⟩
    · intro c rt hI
      cases c with
      | sigSetC i e =>
          rw [interpCmd_sigSetC]
          split
          · rename_i hg
            rcases h1 : interpExpr fuel e rt with ⟨r1, rt1⟩
            have h1p := (invExprAll fuel).1 e rt hI
            rw [h1] at h1p
            cases r1 with
            | error err => exact ⟨h1p.1, Nat.le_of_eq h1p.2.symm⟩
            | ok v =>
                dsimp only
                have hset := inv_setSignal fuel h1p.1 (i := i) (by rw [h1p.2]; exact hg.1) v
                exact ⟨hset.1, Nat.le_of_eq (hset.2.trans h1p.2).symm⟩
          · exact ⟨hI, Nat.le_refl _⟩
      | evalC e =>
          rw [interpCmd_evalC]
          rcases h1 : interpExpr fuel e rt with ⟨r1, rt1⟩
          have h1p := (invExprAll fuel).1 e rt hI
          rw [h1] at h1p
          cases r1 <;> exact ⟨h1p.1, Nat.le_of_eq h1p.2.symm⟩
      | cleanupC cid =>
          rw [interpCmd_cleanupC]
          cases ha : rt.activeEffect with
          | none => exact ⟨hI, Nat.le_refl _⟩
          | some eid =>
              dsimp only
              refine ⟨inv_updN hI eid _ (hI.actBound eid ha) rfl rfl (hI.jkOK eid), ?_⟩
              rw [updN_nextId]
      | mkEffectC body =>
          rw [interpCmd_mkEffectC]
          have halloc : Inv { rt with
              nextId := rt.nextId + 1,
              nodes := fun j => if j = rt.nextId then
                  { kind := Kind.effect, ebody := body, registered := true } else rt.nodes j } :=
            inv_allocNode hI _ rfl rfl (by simp)
          have hrun := ihe rt.nextId _ halloc (by simp)
          exact ⟨hrun.1, Nat.le_trans (by simp) hrun.2⟩
      | throwC code =>
          rw [interpCmd_throwC]
          exact ⟨hI, Nat.le_refl _⟩
    · intro eid rt hI heid
      rw [runEffect_succ]
      split
      · exact ⟨hI, Nat.le_refl _⟩
      · dsimp only
        set rtB :=
          ((rt.updN eid (fun n => { n with cleanups := [] })).getN eid).deps.foldl
            (fun acc d => unlink acc eid d)
            (rt.updN eid (fun n => { n with cleanups := [] })) with hAB
        have hIB : Inv rtB ∧ rtB.nextId = rt.nextId := by
          rw [hAB]
          refine foldlPres (fun s => Inv s ∧ s.nextId = rt.nextId)
            (fun acc d => unlink acc eid d) ?_ _ _ ?_
          · intro s d hs
            exact ⟨inv_unlink hs.1 eid d, (unlink_nextId s eid d).trans hs.2⟩
          · exact ⟨inv_updN hI eid _ heid rfl rfl (hI.jkOK eid), by rw [updN_nextId]⟩
        have hI3 : Inv ({ rtB with activeEffect := some eid,
                                   currentObserver := some eid,
                                   trace := rtB.trace ++ [.effStart eid] } : RT) := by
          refine ⟨hIB.1.edge, hIB.1.depsNodup, hIB.1.subsNodup, hIB.1.alloc,
            hIB.1.edgeBound, hIB.1.cqEmpty, hIB.1.eqBound, hIB.1.jkOK, ?_, ?_, hIB.1.logBound⟩
          · intro o ho
            injection ho with ho
            rw [← ho, hIB.2]
            exact heid
          · intro o ho
            injection ho with ho
            rw [← ho, hIB.2]
            exact heid
        rcases hI4 : interpCmds fuel
            ((({ rtB with activeEffect := some eid,
                          currentObserver := some eid,
                          trace := rtB.trace ++ [.effStart eid] } : RT).getN eid).ebody)
            ({ rtB with activeEffect := some eid,
                        currentObserver := some eid,
                        trace := rtB.trace ++ [.effStart eid] } : RT) with ⟨r, rt4⟩
        have hbody := ihs
            ((({ rtB with activeEffect := some eid,
                          currentObserver := some eid,
                          trace := rtB.trace ++ [.effStart eid] } : RT).getN eid).ebody)
            ({ rtB with activeEffect := some eid,
                        currentObserver := some eid,
                        trace := rtB.trace ++ [.effStart eid] } : RT) hI3
        rw [hI4] at hbody
        have hb4 : Inv rt4 ∧ rt.nextId ≤ rt4.nextId :=
          ⟨hbody.1, Nat.le_trans (Nat.le_of_eq hIB.2.symm) hbody.2⟩
        have hObs : ∀ x, rtB.currentObserver = some x → x < rt4.nextId := by
          intro x hx
          have := hIB.1.obsBound x hx
          omega
        have hI5 : ∀ r2 : RT, r2 = rt4 →
            Inv ({ rt4 with currentObserver := rtB.currentObserver,
                            activeEffect := none } : RT) := by
          intro _ _
          refine ⟨hb4.1.edge, hb4.1.depsNodup, hb4.1.subsNodup, hb4.1.alloc,
            hb4.1.edgeBound, hb4.1.cqEmpty, hb4.1.eqBound, hb4.1.jkOK, ?_, ?_, hb4.1.logBound⟩
          · intro o ho
            exact hObs o ho
          · intro o ho
            cases ho
        cases r with
        | error err =>
            exact ⟨hI5 rt4 rfl, hb4.2⟩
        | ok u =>
            dsimp only
            exact ⟨inv_withTrace (hI5 rt4 rfl) _, hb4.2⟩

/-- Administrative fields (queues given their side conditions, flags,
depths, logs, trace) may change freely without disturbing the invariant. -/
theorem inv_admin {rt : RT} (hI : Inv rt) {cq eq2 : List Nat} {sc : Bool}
    {bd ad mu : Nat} {lgs : List (List (Nat × Val))} {tr : List Ev}
    (hcq : cq = [])
    (heq : ∀ j ∈ eq2, j < rt.nextId)
    (hlg : ∀ L ∈ lgs, ∀ p : Nat × Val, p ∈ L → p.1 < rt.nextId) :
    Inv { rt with computeQ := cq, effectQ := eq2, scheduled := sc, batchDepth := bd,
                  atomicDepth := ad, atomicLogs := lgs, muted := mu, trace := tr } := by
  refine ⟨hI.edge, hI.depsNodup, hI.subsNodup, hI.alloc, hI.edgeBound, hcq, heq,
    hI.jkOK, hI.obsBound, hI.actBound, hlg⟩

theorem mem_insJob {rt : RT} {j a : Nat} : ∀ {l : List Nat}, a ∈ insJob rt j l → a = j ∨ a ∈ l := by
  intro l
  induction l with
  | nil =>
      intro h
      have h2 : a ∈ [j] := h
      exact Or.inl (List.mem_singleton.mp h2)
  | cons x xs ih =>
      intro h
      have h2 : a ∈ (if prio rt x ≤ prio rt j then x :: insJob rt j xs else j :: x :: xs) := h
      split at h2
      · rcases List.mem_cons.mp h2 with h3 | h3
        · subst h3
          exact Or.inr (List.mem_cons_self a xs)
        · rcases ih h3 with h4 | h4
          · exact Or.inl h4
          · exact Or.inr (List.mem_cons_of_mem x h4)
      · rcases List.mem_cons.mp h2 with h3 | h3
        · exact Or.inl h3
        · exact Or.inr h3

theorem mem_sortJobs {rt : RT} {js : List Nat} {a : Nat}
    (h : a ∈ sortJobs rt js) : a ∈ js := by
  unfold sortJobs at h
  suffices hgen : ∀ (l acc : List Nat), a ∈ l.foldl (fun acc j => insJob rt j acc) acc →
      a ∈ acc ∨ a ∈ l by
    rcases hgen js [] h with h2 | h2
    · simp at h2
    · exact h2
  intro l
  induction l with
  | nil =>
      intro acc h2
      exact Or.inl h2
  | cons x xs ih =>
      intro acc h2
      rcases ih (insJob rt x acc) h2 with h3 | h3
      · rcases mem_insJob h3 with h4 | h4
        · exact Or.inr (by rw [h4]; exact List.mem_cons_self x xs)
        · exact Or.inl h4
      · exact Or.inr (List.mem_cons_of_mem x h3)

theorem inv_runJobs (fuel : Nat) :
    ∀ (js : List Nat) (rt : RT), Inv rt → (∀ j ∈ js, j < rt.nextId) →
    Inv ((runJobs fuel JobKind.effect js rt).2) ∧
      rt.nextId ≤ ((runJobs fuel JobKind.effect js rt).2).nextId := by
  intro js
  induction js with
  | nil =>
      intro rt hI _
      exact ⟨hI, Nat.le_refl _⟩
  | cons j rest ih =>
      intro rt hI hb
      unfold runJobs
      dsimp only
      have hj : j < rt.nextId := hb j (List.mem_cons_self j rest)
      have hI1 : Inv (rt.updN j (fun n => { n with jobKind := some JobKind.effect })) :=
        inv_updN hI j _ hj rfl rfl (by simp)
      rcases hre : runEffect fuel j (rt.updN j (fun n => { n with jobKind := some JobKind.effect }))
        with ⟨r, rt2⟩
      have hrp := (invCmdAll fuel).2.2 j _ hI1 (by rw [updN_nextId]; exact hj)
      rw [hre] at hrp
      have hrp2 : Inv rt2 ∧ rt.nextId ≤ rt2.nextId :=
        ⟨hrp.1, by rw [← updN_nextId rt j (fun n => { n with jobKind := some JobKind.effect })]
                   exact hrp.2⟩
      cases r with
      | error err => exact hrp2
      | ok u =>
          have hnext := ih rt2 hrp2.1
            (fun x hx => Nat.lt_of_lt_of_le (hb x (List.mem_cons_of_mem j hx)) hrp2.2)
          exact ⟨hnext.1, Nat.le_trans hrp2.2 hnext.2⟩

theorem phaseA_noop (fuel : Nat) (rt : RT) (h : rt.computeQ = []) :
    (phaseA fuel rt).2 = rt := by
  cases fuel with
  | zero => rfl
  | succ fuel =>
      rw [phaseA_succ, if_pos h]

theorem inv_flushLoop (fuel : Nat) :
    ∀ (guard : Nat) (rt : RT), Inv rt →
    Inv ((flushLoop fuel guard rt).2) ∧ rt.nextId ≤ ((flushLoop fuel guard rt).2).nextId := by
  induction fuel with
  | zero =>
      intro guard rt hI
      exact ⟨hI, Nat.le_refl _⟩
  | succ fuel ih =>
      intro guard rt hI
      rw [flushLoop_succ]
      split
      · exact ⟨hI, Nat.le_refl _⟩
      · split
        · exact ⟨hI, Nat.le_refl _⟩
        · rcases hpz : phaseA fuel rt with ⟨r, rtA⟩
          have hpa : rtA = rt := by
            have h2 := phaseA_noop fuel rt hI.cqEmpty
            rw [hpz] at h2
            exact h2
          subst rtA
          cases r with
          | error err => exact ⟨hI, Nat.le_refl _⟩
          | ok u =>
              dsimp only
              split
              · exact ih (guard + 1) rt hI
              · have hclear : Inv ({ rt with effectQ := [] } : RT) :=
                  inv_admin hI hI.cqEmpty
                    (fun j hj => absurd hj (List.not_mem_nil j)) hI.logBound
                have hbnd : ∀ j ∈ sortJobs rt rt.effectQ,
                    j < ({ rt with effectQ := [] } : RT).nextId := by
                  intro j hj
                  exact hI.eqBound j (mem_sortJobs hj)
                rcases hrj : runJobs fuel JobKind.effect (sortJobs rt rt.effectQ)
                    ({ rt with effectQ := [] } : RT) with ⟨r2, rt3⟩
                have hrp := inv_runJobs fuel (sortJobs rt rt.effectQ)
                    ({ rt with effectQ := [] } : RT) hclear hbnd
                rw [hrj] at hrp
                cases r2 with
                | error err => exact hrp
                | ok u2 =>
                    have hnx := ih (guard + 1) rt3 hrp.1
                    exact ⟨hnx.1, Nat.le_trans hrp.2 hnx.2⟩

theorem inv_flush {rt : RT} (hI : Inv rt) (fuel : Nat) :
    Inv ((flushJobsTwoPhase fuel rt).2) ∧
      rt.nextId ≤ ((flushJobsTwoPhase fuel rt).2).nextId := by
  unfold flushJobsTwoPhase
  exact inv_flushLoop fuel 0 _ (inv_withSchedTrace hI false _)

theorem inv_flushSync {rt : RT} (hI : Inv rt) (fuel : Nat) :
    Inv ((flushSync fuel rt).2) ∧ rt.nextId ≤ ((flushSync fuel rt).2).nextId := by
  unfold flushSync
  split
  · exact ⟨hI, Nat.le_refl _⟩
  · exact inv_flush hI fuel

/-- A single `unlink` changes a node's dependency list only when that node is
the unlinking observer, and then by erasing the target. -/
theorem unlink_getN_deps (s : RT) (f t j : Nat) :
    ((unlink s f t).getN j).deps =
      if j = f then ((s.getN j).deps).erase t else (s.getN j).deps := by
  by_cases h1 : j = f
  · subst h1
    by_cases h2 : j = t
    · subst h2
      simp [getN_unlink]
    · simp [getN_unlink, h2]
  · by_cases h2 : j = t
    · subst h2
      simp [getN_unlink, h1]
    · simp [getN_unlink, h1, h2]

/-- A single `unlink` changes a node's subscriber list only when that node is
the unlink target, and then by erasing the observer. -/
theorem unlink_getN_subs (s : RT) (f t j : Nat) :
    ((unlink s f t).getN j).subs =
      if j = t then ((s.getN j).subs).erase f else (s.getN j).subs := by
  by_cases h1 : j = f
  · subst h1
    by_cases h2 : j = t
    · subst h2
      simp [getN_unlink]
    · simp [getN_unlink, h2]
  · by_cases h2 : j = t
    · subst h2
      simp [getN_unlink, h1]
    · simp [getN_unlink, h1, h2]

theorem diff_self_nil : ∀ l : List Nat, l.diff l = []
  | [] => rfl
  | a :: l => by
      rw [List.diff_cons, List.erase_cons_head]
      exact diff_self_nil l

/-- Unlinking node `i` from every element of `l` removes `l` from its
dependency list. -/
theorem foldUnlinkDeps (i : Nat) : ∀ (l : List Nat) (s : RT),
    ((l.foldl (fun acc d => unlink acc i d) s).getN i).deps = ((s.getN i).deps).diff l := by
  intro l
  induction l with
  | nil =>
      intro s
      rfl
  | cons d l ih =>
      intro s
      rw [List.foldl_cons, ih, List.diff_cons, unlink_getN_deps, if_pos rfl]

/-- Unlinking every element of `l` from node `i` removes `l` from its
subscriber list. -/
theorem foldUnlinkSubs (i : Nat) : ∀ (l : List Nat) (s : RT),
    ((l.foldl (fun acc f => unlink acc f i) s).getN i).subs = ((s.getN i).subs).diff l := by
  intro l
  induction l with
  | nil =>
      intro s
      rfl
  | cons f l ih =>
      intro s
      rw [List.foldl_cons, ih, List.diff_cons, unlink_getN_subs, if_pos rfl]

/-- The subscriber-side unlink fold never repopulates an empty dependency
list. -/
theorem foldUnlinkDepsNil (i : Nat) : ∀ (l : List Nat) (s : RT),
    (s.getN i).deps = [] →
    ((l.foldl (fun acc f => unlink acc f i) s).getN i).deps = [] := by
  intro l
  induction l with
  | nil =>
      intro s h
      exact h
  | cons f l ih =>
      intro s h
      rw [List.foldl_cons]
      apply ih
      rw [unlink_getN_deps]
      split
      · rw [h]
        rfl
      · exact h

/-- Every entry of a merged atomic log comes from the child or the parent
log. -/
theorem mem_merge {p : Nat × Val} : ∀ (c par : List (Nat × Val)),
    p ∈ mergeChildIntoParent c par → p ∈ c ∨ p ∈ par := by
  intro c
  induction c with
  | nil =>
      intro par h
      exact Or.inr h
  | cons nv c ih =>
      intro par h
      have h2 : p ∈ mergeChildIntoParent c
          (if (par.lookup nv.1).isSome then par else par ++ [nv]) := by
        unfold mergeChildIntoParent at h ⊢
        rw [List.foldl_cons] at h
        exact h
      rcases ih _ h2 with h3 | h3
      · exact Or.inl (List.mem_cons_of_mem nv h3)
      · split at h3
        · exact Or.inr h3
        · rcases List.mem_append.mp h3 with h4 | h4
          · exact Or.inr h4
          · rw [List.mem_singleton.mp h4]
            exact Or.inl (List.mem_cons_self nv c)

/-- `restoreSignalAndMarkStale` preserves the invariant and the id counter. -/
theorem inv_restoreSignalAndMarkStale (fuel i : Nat) (prev : Val) {rt : RT} (hI : Inv rt)
    (hi : i < rt.nextId) :
    Inv (restoreSignalAndMarkStale fuel i prev rt) ∧
      (restoreSignalAndMarkStale fuel i prev rt).nextId = rt.nextId := by
  unfold restoreSignalAndMarkStale
  dsimp only
  have hI1 : Inv (rt.updN i (fun n => { n with value := prev })) :=
    inv_updN hI i _ hi rfl rfl (hI.jkOK i)
  split
  · refine foldlPresMem (fun s => Inv s ∧ s.nextId = rt.nextId) _ _ ?_ _
      ⟨hI1, updN_nextId rt i _⟩
    intro s a ha hp
    split
    · exact ⟨(inv_markStale fuel a hp.1).1, ((inv_markStale fuel a hp.1).2).trans hp.2⟩
    · exact hp
  · exact ⟨hI1, updN_nextId rt i _⟩

/-- Entering `atomic` preserves the invariant and the id counter. -/
theorem inv_atomicEnter {rt : RT} (hI : Inv rt) :
    Inv (atomicEnter rt) ∧ (atomicEnter rt).nextId = rt.nextId := by
  unfold atomicEnter
  refine ⟨inv_admin hI hI.cqEmpty hI.eqBound ?_, rfl⟩
  intro L hL p hp
  rcases List.mem_cons.mp hL with h | h
  · subst h
    exact absurd hp (List.not_mem_nil p)
  · exact hI.logBound L h p hp

/-- `batch` preserves the invariant; ids only grow. -/
theorem inv_batch (fuel : Nat) (body : List Cmd) {rt : RT} (hI : Inv rt) :
    Inv ((batch fuel body rt).2) ∧ rt.nextId ≤ ((batch fuel body rt).2).nextId := by
  unfold batch
  dsimp only
  have hI0 : Inv ({ rt with batchDepth := rt.batchDepth + 1 } : RT) :=
    inv_admin hI hI.cqEmpty hI.eqBound hI.logBound
  rcases hc : interpCmds fuel body ({ rt with batchDepth := rt.batchDepth + 1 } : RT)
      with ⟨r, rt1⟩
  have hcp := (invCmdAll fuel).1 body ({ rt with batchDepth := rt.batchDepth + 1 } : RT) hI0
  rw [hc] at hcp
  have hmono : rt.nextId ≤ rt1.nextId := hcp.2
  have hI2 : Inv ({ rt1 with batchDepth := rt1.batchDepth - 1 } : RT) :=
    inv_admin hcp.1 hcp.1.cqEmpty hcp.1.eqBound hcp.1.logBound
  cases r with
  | ok u =>
      dsimp only
      split
      · have hf := inv_flush hI2 fuel
        exact ⟨hf.1, le_trans hmono hf.2⟩
      · exact ⟨hI2, hmono⟩
  | error err =>
      dsimp only
      split
      · rcases hf2 : flushJobsTwoPhase fuel ({ rt1 with batchDepth := rt1.batchDepth - 1 } : RT)
            with ⟨r2, rt3⟩
        have hfp := inv_flush hI2 fuel
        rw [hf2] at hfp
        cases r2 with
        | error e2 => exact ⟨hfp.1, le_trans hmono hfp.2⟩
        | ok u2 => exact ⟨hfp.1, le_trans hmono hfp.2⟩
      · exact ⟨hI2, hmono⟩

/-- `exitCommit` preserves the invariant; ids only grow. -/
theorem inv_exitCommit (fuel : Nat) {rt : RT} (hI : Inv rt) :
    Inv ((exitCommit fuel rt).2) ∧ rt.nextId ≤ ((exitCommit fuel rt).2).nextId := by
  unfold exitCommit
  cases hlog : rt.atomicLogs with
  | nil => exact ⟨hI, Nat.le_refl _⟩
  | cons log rest =>
      dsimp only
      have hrest : ∀ L ∈ rest, ∀ p : Nat × Val, p ∈ L → p.1 < rt.nextId := by
        intro L hL p hp
        refine hI.logBound L ?_ p hp
        rw [hlog]
        exact List.mem_cons_of_mem log hL
      have hlogB : ∀ p : Nat × Val, p ∈ log → p.1 < rt.nextId := by
        intro p hp
        refine hI.logBound log ?_ p hp
        rw [hlog]
        exact List.mem_cons_self log rest
      by_cases had : 0 < rt.atomicDepth - 1
      · rw [if_pos had]
        cases rest with
        | nil =>
            dsimp only
            split
            · exact inv_flush (inv_admin hI hI.cqEmpty hI.eqBound hrest) fuel
            · exact ⟨inv_admin hI hI.cqEmpty hI.eqBound hrest, Nat.le_refl _⟩
        | cons parent rest2 =>
            dsimp only
            have hmb : ∀ L ∈ (mergeChildIntoParent log parent :: rest2),
                ∀ p : Nat × Val, p ∈ L → p.1 < rt.nextId := by
              intro L hL p hp
              rcases List.mem_cons.mp hL with h | h
              · subst h
                rcases mem_merge log parent hp with h2 | h2
                · exact hlogB p h2
                · exact hrest parent (List.mem_cons_self parent rest2) p h2
              · exact hrest L (List.mem_cons_of_mem _ h) p hp
            split
            · exact inv_flush (inv_admin hI hI.cqEmpty hI.eqBound hmb) fuel
            · exact ⟨inv_admin hI hI.cqEmpty hI.eqBound hmb, Nat.le_refl _⟩
      · rw [if_neg had]
        split
        · exact inv_flush (inv_admin hI hI.cqEmpty hI.eqBound hrest) fuel
        · exact ⟨inv_admin hI hI.cqEmpty hI.eqBound hrest, Nat.le_refl _⟩

/-- `exitRollback` preserves the invariant; the id counter is untouched. -/
theorem inv_exitRollback (fuel : Nat) {rt : RT} (hI : Inv rt) :
    Inv ((exitRollback fuel rt).2) ∧ ((exitRollback fuel rt).2).nextId = rt.nextId := by
  unfold exitRollback
  cases hlog : rt.atomicLogs with
  | nil => exact ⟨hI, rfl⟩
  | cons log rest =>
      dsimp only
      have hrest : ∀ L ∈ rest, ∀ p : Nat × Val, p ∈ L → p.1 < rt.nextId := by
        intro L hL p hp
        refine hI.logBound L ?_ p hp
        rw [hlog]
        exact List.mem_cons_of_mem log hL
      have hlogB : ∀ p : Nat × Val, p ∈ log → p.1 < rt.nextId := by
        intro p hp
        refine hI.logBound log ?_ p hp
        rw [hlog]
        exact List.mem_cons_self log rest
      have hI1 : Inv ({ rt with atomicLogs := rest, atomicDepth := rt.atomicDepth - 1,
                                muted := rt.muted + 1 } : RT) :=
        inv_admin hI hI.cqEmpty hI.eqBound hrest
      have hstep : ∀ (s : RT) (p : Nat × Val), p ∈ log → (Inv s ∧ s.nextId = rt.nextId) →
          Inv (restoreSignalAndMarkStale fuel p.1 p.2 s) ∧
            (restoreSignalAndMarkStale fuel p.1 p.2 s).nextId = rt.nextId := by
        intro s p hp hP
        have h := inv_restoreSignalAndMarkStale fuel p.1 p.2 hP.1
          (by rw [hP.2]; exact hlogB p hp)
        exact ⟨h.1, h.2.trans hP.2⟩
      have hf := foldlPresMem (fun s => Inv s ∧ s.nextId = rt.nextId)
        (fun acc p => restoreSignalAndMarkStale fuel p.1 p.2 acc) log hstep
        ({ rt with atomicLogs := rest, atomicDepth := rt.atomicDepth - 1,
                   muted := rt.muted + 1 } : RT) ⟨hI1, rfl⟩
      refine ⟨inv_admin hf.1 rfl ?_ hf.1.logBound, hf.2⟩
      intro j hj
      exact absurd hj (List.not_mem_nil j)

/-- `atomic` preserves the invariant; ids only grow. -/
theorem inv_atomic (fuel : Nat) (body : List Cmd) {rt : RT} (hI : Inv rt) :
    Inv ((atomic fuel body rt).2) ∧ rt.nextId ≤ ((atomic fuel body rt).2).nextId := by
  unfold atomic
  dsimp only
  have hE := inv_atomicEnter hI
  rcases hc : interpCmds fuel body (atomicEnter rt) with ⟨r, rt1⟩
  have hcp := (invCmdAll fuel).1 body (atomicEnter rt) hE.1
  rw [hc] at hcp
  have hmono : rt.nextId ≤ rt1.nextId := hcp.2
  cases r with
  | ok u =>
      dsimp only
      rcases hec : exitCommit fuel rt1 with ⟨r2, rt2⟩
      have hecp := inv_exitCommit fuel hcp.1
      rw [hec] at hecp
      cases r2 with
      | ok u2 => exact ⟨hecp.1, le_trans hmono hecp.2⟩
      | error e2 =>
          dsimp only
          rcases her : exitRollback fuel rt2 with ⟨r3, rt3⟩
          have herp := inv_exitRollback fuel hecp.1
          rw [her] at herp
          cases r3 with
          | ok u3 =>
              exact ⟨herp.1, le_trans (le_trans hmono hecp.2) (le_of_eq herp.2.symm)⟩
          | error e3 =>
              exact ⟨herp.1, le_trans (le_trans hmono hecp.2) (le_of_eq herp.2.symm)⟩
  | error err =>
      dsimp only
      rcases her : exitRollback fuel rt1 with ⟨r3, rt3⟩
      have herp := inv_exitRollback fuel hcp.1
      rw [her] at herp
      cases r3 with
      | ok u3 => exact ⟨herp.1, le_trans hmono (le_of_eq herp.2.symm)⟩
      | error e3 => exact ⟨herp.1, le_trans hmono (le_of_eq herp.2.symm)⟩

/-- Every public operation preserves the invariant; ids only grow. -/
theorem inv_applyOp (fuel : Nat) (op : Op) : ∀ {rt : RT}, Inv rt →
    Inv ((applyOp fuel op rt).2) ∧ rt.nextId ≤ ((applyOp fuel op rt).2).nextId := by
  intro rt hI
  cases op with
  | newSignal v eq =>
      exact ⟨inv_allocNode hI _ rfl rfl (by simp), Nat.le_succ _⟩
  | newComputed e eq =>
      exact ⟨inv_allocNode hI _ rfl rfl (by simp), Nat.le_succ _⟩
  | newEffect body =>
      have hI1 : Inv ({ rt with nextId := rt.nextId + 1,
                                nodes := fun j => if j = rt.nextId then
                                    { kind := Kind.effect, ebody := body, registered := true }
                                  else rt.nodes j } : RT) :=
        inv_allocNode hI _ rfl rfl (by simp)
      have h2 := (invCmdAll fuel).2.2 rt.nextId _ hI1 (Nat.lt_succ_self _)
      exact ⟨h2.1, le_trans (Nat.le_succ _) h2.2⟩
  | setTop i v =>
      simp only [applyOp]
      split
      · rename_i h
        have hs := inv_setSignal fuel hI h.1 v
        exact ⟨hs.1, le_of_eq hs.2.symm⟩
      · exact ⟨hI, Nat.le_refl _⟩
  | getTop i =>
      simp only [applyOp]
      split
      · rename_i h
        have ht : Inv ((track rt i).2) := inv_track hI h.1
        have htn := track_nextId rt i
        rcases htr : track rt i with ⟨r1, rt1⟩
        rw [htr] at ht htn
        cases r1 with
        | error err => exact ⟨ht, le_of_eq htn.symm⟩
        | ok u => exact ⟨ht, le_of_eq htn.symm⟩
      · exact ⟨hI, Nat.le_refl _⟩
  | peekTop i =>
      exact ⟨hI, Nat.le_refl _⟩
  | compGetTop i =>
      simp only [applyOp]
      have hg := (invExprAll fuel).2.1 i rt hI
      rcases hc : compGet fuel i rt with ⟨r1, rt1⟩
      rw [hc] at hg
      cases r1 with
      | error err => exact ⟨hg.1, le_of_eq hg.2.symm⟩
      | ok u => exact ⟨hg.1, le_of_eq hg.2.symm⟩
  | compDispose i =>
      simp only [applyOp]
      split
      · rename_i hk
        have hik : i < rt.nextId := hI.kindBound (by rw [hk]; decide)
        have hstep1 : ∀ (s : RT) (d : Nat), (Inv s ∧ s.nextId = rt.nextId) →
            Inv (unlink s i d) ∧ (unlink s i d).nextId = rt.nextId := by
          intro s d hp
          exact ⟨inv_unlink hp.1 i d, (unlink_nextId s i d).trans hp.2⟩
        have hf1 := foldlPres (fun s => Inv s ∧ s.nextId = rt.nextId)
          (fun acc d => unlink acc i d) hstep1 ((rt.getN i).deps) rt ⟨hI, rfl⟩
        have hd1 : ((((rt.getN i).deps).foldl (fun acc d => unlink acc i d) rt).getN i).deps
            = [] := by
          rw [foldUnlinkDeps, diff_self_nil]
        set rt1 := ((rt.getN i).deps).foldl (fun acc d => unlink acc i d) rt with h1
        have hstep2 : ∀ (s : RT) (d : Nat), (Inv s ∧ s.nextId = rt.nextId) →
            Inv (unlink s d i) ∧ (unlink s d i).nextId = rt.nextId := by
          intro s d hp
          exact ⟨inv_unlink hp.1 d i, (unlink_nextId s d i).trans hp.2⟩
        have hf2 := foldlPres (fun s => Inv s ∧ s.nextId = rt.nextId)
          (fun acc s => unlink acc s i) hstep2 ((rt1.getN i).subs) rt1 hf1
        have hs2 : ((((rt1.getN i).subs).foldl (fun acc s => unlink acc s i) rt1).getN i).subs
            = [] := by
          rw [foldUnlinkSubs, diff_self_nil]
        have hd2 : ((((rt1.getN i).subs).foldl (fun acc s => unlink acc s i) rt1).getN i).deps
            = [] :=
          foldUnlinkDepsNil i _ rt1 hd1
        set rt2 := ((rt1.getN i).subs).foldl (fun acc s => unlink acc s i) rt1 with h2
        have hI3 : Inv (rt2.updN i (fun n => { n with deps := [] })) := by
          refine inv_updN hf2.1 i _ (by rw [hf2.2]; exact hik) ?_ rfl (hf2.1.jkOK i)
          rw [hd2]
        set rt3 := rt2.updN i (fun n => { n with deps := [] }) with h3
        have hs3 : (rt3.getN i).subs = [] := by
          rw [h3, getN_updN_self]
          exact hs2
        have hI4 : Inv (rt3.updN i (fun n => { n with subs := [] })) := by
          refine inv_updN hI3 i _ (by rw [h3, updN_nextId, hf2.2]; exact hik) rfl ?_
            (hI3.jkOK i)
          rw [hs3]
        set rt4 := rt3.updN i (fun n => { n with subs := [] }) with h4
        have hI5 : Inv (rt4.updN i (fun n => { n with stale := true, hasValue := false })) :=
          inv_updN hI4 i _ (by rw [h4, updN_nextId, h3, updN_nextId, hf2.2]; exact hik)
            rfl rfl (hI4.jkOK i)
        refine ⟨hI5, ?_⟩
        rw [updN_nextId, h4, updN_nextId, h3, updN_nextId, hf2.2]
      · exact ⟨hI, Nat.le_refl _⟩
  | effDispose i =>
      simp only [applyOp]
      split
      · rename_i hk
        split
        · exact ⟨hI, Nat.le_refl _⟩
        · have hik : i < rt.nextId := hI.kindBound (by rw [hk]; decide)
          have hI1 : Inv (rt.updN i (fun n => { n with disposed := true })) :=
            inv_updN hI i _ hik rfl rfl (hI.jkOK i)
          set rt1 := rt.updN i (fun n => { n with disposed := true }) with h1
          have hI2 : Inv (rt1.updN i (fun n => { n with cleanups := [] })) :=
            inv_updN hI1 i _ (by rw [h1, updN_nextId]; exact hik) rfl rfl (hI1.jkOK i)
          set rt2 := rt1.updN i (fun n => { n with cleanups := [] }) with h2
          have hrt2n : rt2.nextId = rt.nextId := by
            rw [h2, updN_nextId, h1, updN_nextId]
          have hstep3 : ∀ (s : RT) (d : Nat), (Inv s ∧ s.nextId = rt.nextId) →
              Inv (unlink s i d) ∧ (unlink s i d).nextId = rt.nextId := by
            intro s d hp
            exact ⟨inv_unlink hp.1 i d, (unlink_nextId s i d).trans hp.2⟩
          have hf3 := foldlPres (fun s => Inv s ∧ s.nextId = rt.nextId)
            (fun acc d => unlink acc i d) hstep3 ((rt2.getN i).deps) rt2 ⟨hI2, hrt2n⟩
          have hd3 : ((((rt2.getN i).deps).foldl (fun acc d => unlink acc i d) rt2).getN i).deps
              = [] := by
            rw [foldUnlinkDeps, diff_self_nil]
          set rt3 := ((rt2.getN i).deps).foldl (fun acc d => unlink acc i d) rt2 with h3
          have hI4 : Inv (rt3.updN i (fun n => { n with deps := [] })) := by
            refine inv_updN hf3.1 i _ (by rw [hf3.2]; exact hik) ?_ rfl (hf3.1.jkOK i)
            rw [hd3]
          set rt4 := rt3.updN i (fun n => { n with deps := [] }) with h4
          have hI5 : Inv (rt4.updN i (fun n => { n with registered := false })) :=
            inv_updN hI4 i _ (by rw [h4, updN_nextId, hf3.2]; exact hik) rfl rfl (hI4.jkOK i)
          refine ⟨hI5, ?_⟩
          rw [updN_nextId, h4, updN_nextId, hf3.2]
      · exact ⟨hI, Nat.le_refl _⟩
  | subscribeTop obs tgt =>
      simp only [applyOp]
      split
      · rename_i h
        split
        · exact ⟨hI, Nat.le_refl _⟩
        · exact ⟨inv_link hI h.1 h.2.1, le_of_eq (link_nextId rt obs tgt).symm⟩
      · exact ⟨hI, Nat.le_refl _⟩
  | detachTop obs tgt =>
      simp only [applyOp]
      split
      · exact ⟨inv_unlink hI obs tgt, le_of_eq (unlink_nextId rt obs tgt).symm⟩
      · exact ⟨hI, Nat.le_refl _⟩
  | cleanupTop cid =>
      simp only [applyOp]
      cases ha : rt.activeEffect with
      | none => exact ⟨hI, Nat.le_refl _⟩
      | some eid =>
          dsimp only
          refine ⟨inv_updN hI eid _ (hI.actBound eid ha) rfl rfl (hI.jkOK eid), ?_⟩
          rw [updN_nextId]
  | batchTop body =>
      exact inv_batch fuel body hI
  | atomicTop body =>
      exact inv_atomic fuel body hI
  | flushSyncTop =>
      exact inv_flushSync hI fuel
  | microtask =>
      simp only [applyOp]
      split
      · exact inv_flush hI fuel
      · exact ⟨hI, Nat.le_refl _⟩

/-- Every state reachable from `init` through public operations satisfies the
invariant. -/
theorem inv_runProg (fuel : Nat) : ∀ (ops : List Op) (rt : RT), Inv rt →
    Inv (runProg fuel ops rt) := by
  intro ops
  induction ops with
  | nil =>
      intro rt hI
      exact hI
  | cons op rest ih =>
      intro rt hI
      exact ih _ (inv_applyOp fuel op hI).1

/-- C9: in every state reachable from the empty runtime through the public
operations, node `b` is a dependency of node `a` exactly when `a` is a
subscriber of `b`, and dependency and subscriber lists never hold a
duplicate, so each edge of the dual graph is recorded exactly once on each
side. -/
theorem dual_edge_invariant (fuel : Nat) (ops : List Op) (a b : Nat) :
    (b ∈ ((runProg fuel ops init).getN a).deps ↔ a ∈ ((runProg fuel ops init).getN b).subs) ∧
    ((runProg fuel ops init).getN a).deps.Nodup ∧
    ((runProg fuel ops init).getN b).subs.Nodup := by
  have hI := inv_runProg fuel ops init inv_init
  exact ⟨hI.edge a b, hI.depsNodup a, hI.subsNodup b⟩

/-- C10: in every state reachable from the empty runtime through the public
operations, the scheduler's compute queue is empty — `markStale` walks
computed subscribers without enqueuing them and `scheduleJob` only ever
enqueues effect jobs, so Phase A of a flush never has work. -/
theorem computeQ_always_empty (fuel : Nat) (ops : List Op) :
    (runProg fuel ops init).computeQ = [] :=
  (inv_runProg fuel ops init inv_init).cqEmpty

/-! ## The `atomic` rollback invariant (C1)

Relative to the pre-atomic state `rt0`, an in-section state carries one
fresh write log on top of `rt0`'s log stack; every logged pre-write value is
the `rt0` value of that node, every unlogged signal still holds its `rt0`
value, the atomic depth stays positive (so every signal write records), and
no flush has started. -/
structure C1Inv (rt0 rt : RT) : Prop where
  logsEq : ∃ log, rt.atomicLogs = log :: rt0.atomicLogs ∧
    (∀ p : Nat × Val, p ∈ log → p.2 = (rt0.getN p.1).value) ∧
    (∀ i, log.lookup i = none → (rt.getN i).kind = Kind.signal →
      (rt.getN i).value = (rt0.getN i).value)
  depthPos : 0 < rt.atomicDepth
  flushCnt : rt.trace.count Ev.flushStart = rt0.trace.count Ev.flushStart

theorem lookup_cons_self (k : Nat) (v : Val) (l : List (Nat × Val)) :
    (((k, v) :: l).lookup k) = some v := by
  simp only [List.lookup]
  rw [show (k == k) = true from beq_self_eq_true k]

theorem lookup_cons_ne {k j : Nat} (v : Val) (l : List (Nat × Val)) (h : j ≠ k) :
    (((k, v) :: l).lookup j) = l.lookup j := by
  simp only [List.lookup]
  rw [show (j == k) = false from beq_eq_false_iff_ne.mpr h]

theorem lookup_append_none {j : Nat} : ∀ {l1 l2 : List (Nat × Val)},
    (l1 ++ l2).lookup j = none → l1.lookup j = none ∧ l2.lookup j = none := by
  intro l1
  induction l1 with
  | nil =>
      intro l2 h
      exact ⟨rfl, h⟩
  | cons p l1 ih =>
      intro l2 h
      rcases p with ⟨k, v⟩
      by_cases hjk : j = k
      · subst hjk
        rw [List.cons_append, lookup_cons_self] at h
        exact absurd h (by simp)
      · rw [List.cons_append, lookup_cons_ne v (l1 ++ l2) hjk] at h
        obtain ⟨h1, h2⟩ := ih h
        refine ⟨?_, h2⟩
        rw [lookup_cons_ne v l1 hjk]
        exact h1

theorem lookup_singleton_none {i j : Nat} {v : Val}
    (h : ([(i, v)] : List (Nat × Val)).lookup j = none) : j ≠ i := by
  intro hji
  subst hji
  rw [lookup_cons_self] at h
  exact absurd h (by simp)

theorem count_flushStart_append_ne (tr : List Ev) (e : Ev) (h : e ≠ Ev.flushStart) :
    (tr ++ [e]).count Ev.flushStart = tr.count Ev.flushStart := by
  rw [List.count_append]
  simp [List.count_cons, h]

/-- A step that keeps every node's kind and value, the log stack, the atomic
depth and the flush count preserves the rollback invariant. -/
theorem c1_frame {rt0 rt rtA : RT} (h : C1Inv rt0 rt)
    (hkv : ∀ j, (rtA.getN j).kind = (rt.getN j).kind ∧ (rtA.getN j).value = (rt.getN j).value)
    (hl : rtA.atomicLogs = rt.atomicLogs)
    (hd : rtA.atomicDepth = rt.atomicDepth)
    (ht : rtA.trace.count Ev.flushStart = rt.trace.count Ev.flushStart) :
    C1Inv rt0 rtA := by
  obtain ⟨log, hlg, hlv, hunl⟩ := h.logsEq
  refine ⟨⟨log, by rw [hl]; exact hlg, hlv, ?_⟩, by rw [hd]; exact h.depthPos,
    ht.trans h.flushCnt⟩
  intro j hj hkj
  rw [(hkv j).2]
  refine hunl j hj ?_
  rw [← (hkv j).1]
  exact hkj

/-- Changes to fields the rollback invariant ignores. -/
theorem c1_withFields {rt0 rt : RT} (h : C1Inv rt0 rt) {rtA : RT}
    (hn : rtA.nodes = rt.nodes) (hl : rtA.atomicLogs = rt.atomicLogs)
    (hd : rtA.atomicDepth = rt.atomicDepth)
    (ht : rtA.trace.count Ev.flushStart = rt.trace.count Ev.flushStart) :
    C1Inv rt0 rtA := by
  refine c1_frame h ?_ hl hd ht
  intro j
  unfold RT.getN
  rw [hn]
  exact ⟨rfl, rfl⟩

theorem scheduleJob_frame (rt : RT) (j : Nat) :
    (scheduleJob rt j).atomicLogs = rt.atomicLogs ∧
    (scheduleJob rt j).atomicDepth = rt.atomicDepth ∧
    (scheduleJob rt j).trace = rt.trace := by
  unfold scheduleJob
  split
  · exact ⟨rfl, rfl, rfl⟩
  · split
    · exact ⟨rfl, rfl, rfl⟩
    · cases (rt.getN j).jobKind.getD JobKind.effect <;> simp only [] <;> split <;>
        exact ⟨rfl, rfl, rfl⟩

/-- `markStale` never touches a node's kind or value, the log stack, the
atomic depth or the trace. -/
theorem markStale_frame : ∀ (fuel i : Nat) (rt : RT),
    (∀ j, ((markStale fuel i rt).getN j).kind = (rt.getN j).kind ∧
          ((markStale fuel i rt).getN j).value = (rt.getN j).value) ∧
    (markStale fuel i rt).atomicLogs = rt.atomicLogs ∧
    (markStale fuel i rt).atomicDepth = rt.atomicDepth ∧
    (markStale fuel i rt).trace = rt.trace := by
  intro fuel
  induction fuel with
  | zero =>
      intro i rt
      exact ⟨fun j => ⟨rfl, rfl⟩, rfl, rfl, rfl⟩
  | succ fuel ih =>
      intro i rt
      rw [markStale_succ]
      split
      · exact ⟨fun j => ⟨rfl, rfl⟩, rfl, rfl, rfl⟩
      · split
        · exact ⟨fun j => ⟨rfl, rfl⟩, rfl, rfl, rfl⟩
        · refine foldlPres (fun s =>
              (∀ j, (s.getN j).kind = (rt.getN j).kind ∧ (s.getN j).value = (rt.getN j).value) ∧
              s.atomicLogs = rt.atomicLogs ∧ s.atomicDepth = rt.atomicDepth ∧
              s.trace = rt.trace) _ ?_ _ _ ?_
          · intro s a hs
            split
            · obtain ⟨hm1, hm2, hm3, hm4⟩ := ih a s
              exact ⟨fun j => ⟨((hm1 j).1).trans (hs.1 j).1, ((hm1 j).2).trans (hs.1 j).2⟩,
                     hm2.trans hs.2.1, hm3.trans hs.2.2.1, hm4.trans hs.2.2.2⟩
            · split
              · refine ⟨fun j => ⟨?_, ?_⟩, (scheduleJob_frame s a).1.trans hs.2.1,
                  (scheduleJob_frame s a).2.1.trans hs.2.2.1,
                  (scheduleJob_frame s a).2.2.trans hs.2.2.2⟩
                · exact (congrArg Node.kind (scheduleJob_getN s a j)).trans (hs.1 j).1
                · exact (congrArg Node.value (scheduleJob_getN s a j)).trans (hs.1 j).2
              · exact hs
            · exact hs
          · refine ⟨?_, rfl, rfl, rfl⟩
            intro j
            rw [getN_updN]
            split
            · rename_i hji
              rw [hji]
              exact ⟨rfl, rfl⟩
            · exact ⟨rfl, rfl⟩

theorem c1_scheduleJob {rt0 s : RT} (h : C1Inv rt0 s) (a : Nat) :
    C1Inv rt0 (scheduleJob s a) := by
  refine c1_frame h ?_ (scheduleJob_frame s a).1 (scheduleJob_frame s a).2.1
    (by rw [(scheduleJob_frame s a).2.2])
  intro j
  exact ⟨congrArg Node.kind (scheduleJob_getN s a j),
         congrArg Node.value (scheduleJob_getN s a j)⟩

theorem c1_markStale (fuel : Nat) {rt0 s : RT} (h : C1Inv rt0 s) (a : Nat) :
    C1Inv rt0 (markStale fuel a s) := by
  obtain ⟨h1, h2, h3, h4⟩ := markStale_frame fuel a s
  exact c1_frame h h1 h2 h3 (by rw [h4])

theorem c1_updN_frame {rt0 rt : RT} (h : C1Inv rt0 rt) (i : Nat) (f : Node → Node)
    (hk : ∀ n, (f n).kind = n.kind) (hv : ∀ n, (f n).value = n.value) :
    C1Inv rt0 (rt.updN i f) := by
  refine c1_frame h ?_ rfl rfl rfl
  intro j
  rw [getN_updN]
  split
  · rename_i hji
    rw [hji]
    exact ⟨hk _, hv _⟩
  · exact ⟨rfl, rfl⟩

/-- Writing a non-signal node never disturbs the rollback invariant, whatever
happens to its value, provided the kind is untouched. -/
theorem c1_updN_nonsig {rt0 rt : RT} (h : C1Inv rt0 rt) (i : Nat) (f : Node → Node)
    (hk : ∀ n, (f n).kind = n.kind) (hns : (rt.getN i).kind ≠ Kind.signal) :
    C1Inv rt0 (rt.updN i f) := by
  obtain ⟨log, hlg, hlv, hunl⟩ := h.logsEq
  refine ⟨⟨log, hlg, hlv, ?_⟩, h.depthPos, h.flushCnt⟩
  intro j hj hkj
  by_cases hji : j = i
  · subst hji
    rw [getN_updN_self, hk] at hkj
    exact absurd hkj hns
  · rw [getN_updN_other rt i j f hji]
    rw [getN_updN_other rt i j f hji] at hkj
    exact hunl j hj hkj

theorem updN_kind_frame (rt : RT) (i : Nat) (f : Node → Node)
    (hk : ∀ n, (f n).kind = n.kind) :
    ∀ j, ((rt.updN i f).getN j).kind = (rt.getN j).kind := by
  intro j
  rw [getN_updN]
  split
  · rename_i hji
    rw [hji]
    exact hk _
  · rfl

theorem c1_addEdge {rt0 rt : RT} (h : C1Inv rt0 rt) (f t : Nat) :
    C1Inv rt0 (addEdge rt f t) := by
  refine c1_frame h ?_ rfl rfl rfl
  intro j
  exact ⟨(addEdge_keepsFields rt f t j).1, (addEdge_keepsFields rt f t j).2.1⟩

theorem c1_unlink {rt0 rt : RT} (h : C1Inv rt0 rt) (f t : Nat) :
    C1Inv rt0 (unlink rt f t) := by
  refine c1_frame h ?_ rfl rfl rfl
  intro j
  exact ⟨(unlink_keepsFields rt f t j).1, (unlink_keepsFields rt f t j).2.1⟩

theorem c1_link {rt0 rt : RT} (h : C1Inv rt0 rt) (f t : Nat) :
    C1Inv rt0 ((link rt f t).2) ∧
    (∀ j, (((link rt f t).2).getN j).kind = (rt.getN j).kind) := by
  unfold link
  by_cases h1 : (rt.getN f).kind = Kind.signal
  · rw [if_pos h1]
    exact ⟨h, fun j => rfl⟩
  · rw [if_neg h1]
    by_cases h2 : t ∈ (rt.getN f).deps
    · rw [if_pos h2]
      exact ⟨h, fun j => rfl⟩
    · rw [if_neg h2]
      exact ⟨c1_addEdge h f t, fun j => (addEdge_keepsFields rt f t j).1⟩

theorem c1_track {rt0 rt : RT} (h : C1Inv rt0 rt) (dep : Nat) :
    C1Inv rt0 ((track rt dep).2) ∧
    (∀ j, (((track rt dep).2).getN j).kind = (rt.getN j).kind) := by
  unfold track
  cases ho : rt.currentObserver with
  | none => exact ⟨h, fun j => rfl⟩
  | some obs => exact c1_link h obs dep

/-- Allocating a non-signal node keeps the rollback invariant. -/
theorem c1_allocNode {rt0 rt : RT} (hC : C1Inv rt0 rt) (n : Node)
    (hkn : n.kind ≠ Kind.signal) :
    C1Inv rt0 ({ rt with nextId := rt.nextId + 1,
                         nodes := fun j => if j = rt.nextId then n else rt.nodes j } : RT) := by
  obtain ⟨log, hlg, hlv, hunl⟩ := hC.logsEq
  refine ⟨⟨log, hlg, hlv, ?_⟩, hC.depthPos, hC.flushCnt⟩
  intro j hj hkj
  have hg : ({ rt with nextId := rt.nextId + 1,
                       nodes := fun j => if j = rt.nextId then n else rt.nodes j } : RT).getN j =
      if j = rt.nextId then n else rt.getN j := rfl
  rw [hg] at hkj ⊢
  split at hkj
  · exact absurd hkj hkn
  · rename_i hne
    rw [if_neg hne]
    exact hunl j hj hkj

theorem restore_trace (fuel i : Nat) (prev : Val) (rt : RT) :
    (restoreSignalAndMarkStale fuel i prev rt).trace = rt.trace := by
  unfold restoreSignalAndMarkStale
  dsimp only
  split
  · refine foldlPres (fun s => s.trace = rt.trace) _ ?_ _ _ rfl
    intro s a hs
    split
    · rw [(markStale_frame fuel a s).2.2.2, hs]
    · exact hs
  · rfl

/-- `restoreSignalAndMarkStale` writes `prev` into node `i`, leaves every
other value alone and touches no kind. -/
theorem restore_getN_kv (fuel i : Nat) (prev : Val) (rt : RT) (j : Nat) :
    ((restoreSignalAndMarkStale fuel i prev rt).getN j).kind = (rt.getN j).kind ∧
    ((restoreSignalAndMarkStale fuel i prev rt).getN j).value =
      (if j = i then prev else (rt.getN j).value) := by
  unfold restoreSignalAndMarkStale
  dsimp only
  have hbase : (((rt.updN i (fun n => { n with value := prev })).getN j).kind
        = (rt.getN j).kind) ∧
      (((rt.updN i (fun n => { n with value := prev })).getN j).value =
        (if j = i then prev else (rt.getN j).value)) := by
    rw [getN_updN]
    by_cases hji : j = i
    · rw [if_pos hji, if_pos hji]
      subst hji
      exact ⟨rfl, rfl⟩
    · rw [if_neg hji, if_neg hji]
      exact ⟨rfl, rfl⟩
  split
  · refine foldlPres (fun s => (s.getN j).kind = (rt.getN j).kind ∧
        (s.getN j).value = (if j = i then prev else (rt.getN j).value)) _ ?_ _ _ hbase
    intro s a hs
    split
    · obtain ⟨hm1, _, _, _⟩ := markStale_frame fuel a s
      exact ⟨((hm1 j).1).trans hs.1, ((hm1 j).2).trans hs.2⟩
    · exact hs
  · exact hbase

/-- Replaying a write log whose entries all hold `rt0` values restores every
signal to its `rt0` value, provided unlogged signals already hold it. -/
theorem restoreFold_value (fuel : Nat) (rt0 : RT) :
    ∀ (log : List (Nat × Val)) (s : RT),
    (∀ p : Nat × Val, p ∈ log → p.2 = (rt0.getN p.1).value) →
    (∀ i, log.lookup i = none → (s.getN i).kind = Kind.signal →
        (s.getN i).value = (rt0.getN i).value) →
    ∀ i, ((log.foldl (fun acc p => restoreSignalAndMarkStale fuel p.1 p.2 acc) s).getN i).kind
          = Kind.signal →
        ((log.foldl (fun acc p => restoreSignalAndMarkStale fuel p.1 p.2 acc) s).getN i).value
          = (rt0.getN i).value := by
  intro log
  induction log with
  | nil =>
      intro s hv hu i hk
      exact hu i rfl hk
  | cons p log ih =>
      intro s hv hu i hk
      rw [List.foldl_cons] at hk ⊢
      refine ih (restoreSignalAndMarkStale fuel p.1 p.2 s) ?_ ?_ i hk
      · intro q hq
        exact hv q (List.mem_cons_of_mem p hq)
      · intro j hlk hkj
        obtain ⟨hkk, hvv⟩ := restore_getN_kv fuel p.1 p.2 s j
        by_cases hjp : j = p.1
        · rw [hvv, if_pos hjp, hv p (List.mem_cons_self p log), hjp]
        · rw [hvv, if_neg hjp]
          refine hu j ?_ ?_
          · rcases p with ⟨k, v⟩
            rw [lookup_cons_ne v log hjp]
            exact hlk
          · rw [← hkk]
            exact hkj

/-- The heart of C1: inside an atomic section, a signal write preserves the
rollback invariant — the first write of a node records its pre-atomic value
in the top log before the store. -/
theorem c1_setSignal (fuel : Nat) {rt0 rt : RT} (h : C1Inv rt0 rt) (i : Nat) (v : Val)
    (hk : (rt.getN i).kind = Kind.signal) : C1Inv rt0 (setSignal fuel i v rt) := by
  rw [setSignal_eq]
  split
  · exact h
  · dsimp only
    have hin : inAtomic rt = true := decide_eq_true h.depthPos
    rw [if_pos hin]
    obtain ⟨log, hlg, hlv, hunl⟩ := h.logsEq
    have hmid : C1Inv rt0 ((recordAtomicWrite rt i (rt.getN i).value).updN i
        (fun m => { m with value := v })) := by
      unfold recordAtomicWrite
      rw [hlg]
      dsimp only
      by_cases hiL : (log.lookup i).isSome = true
      · rw [if_pos hiL]
        refine ⟨⟨log, ?_, hlv, ?_⟩, h.depthPos, h.flushCnt⟩
        · exact hlg
        · intro j hj hkj
          have hji : j ≠ i := by
            intro hji
            rw [hji] at hj
            rw [hj] at hiL
            simp at hiL
          rw [getN_updN_other rt i j _ hji]
          rw [getN_updN_other rt i j _ hji] at hkj
          exact hunl j hj hkj
      · rw [if_neg hiL]
        have hiN : log.lookup i = none := by
          cases hlk : log.lookup i with
          | none => rfl
          | some w =>
              rw [hlk] at hiL
              simp at hiL
        refine ⟨⟨log ++ [(i, (rt.getN i).value)], rfl, ?_, ?_⟩, h.depthPos, h.flushCnt⟩
        · intro p hp
          rcases List.mem_append.mp hp with h2 | h2
          · exact hlv p h2
          · rw [List.mem_singleton.mp h2]
            exact hunl i hiN hk
        · intro j hj hkj
          obtain ⟨hj1, hj2⟩ := lookup_append_none hj
          have hji : j ≠ i := lookup_singleton_none hj2
          have hgj : (({ rt with
              atomicLogs := (log ++ [(i, (rt.getN i).value)]) :: rt0.atomicLogs } : RT).updN i
              (fun m => { m with value := v })).getN j = rt.getN j :=
            getN_updN_other _ i j _ hji
          rw [hgj]
          rw [hgj] at hkj
          exact hunl j hj1 hkj
    split
    · exact hmid
    · refine foldlPres (fun s => C1Inv rt0 s) _ ?_ _ _ hmid
      intro s a hs
      split
      · split
        · exact c1_scheduleJob hs a
        · exact hs
      · exact c1_markStale fuel hs a
      · exact hs

/-- Expression evaluation, computed reads and recomputation preserve the
rollback invariant and every node's kind. -/
theorem c1ExprAll (rt0 : RT) : ∀ fuel : Nat,
    (∀ e rt, C1Inv rt0 rt → C1Inv rt0 ((interpExpr fuel e rt).2) ∧
       (∀ j, (((interpExpr fuel e rt).2).getN j).kind = (rt.getN j).kind)) ∧
    (∀ i rt, C1Inv rt0 rt → C1Inv rt0 ((compGet fuel i rt).2) ∧
       (∀ j, (((compGet fuel i rt).2).getN j).kind = (rt.getN j).kind)) ∧
    (∀ i rt, C1Inv rt0 rt → (rt.getN i).kind = Kind.computed →
       C1Inv rt0 ((recompute fuel i rt).2) ∧
       (∀ j, (((recompute fuel i rt).2).getN j).kind = (rt.getN j).kind)) := by
  intro fuel
  induction fuel with
  | zero =>
      refine ⟨?_, ?_, ?_⟩
      · intro _ rt h
        exact ⟨h, fun j => rfl⟩
      · intro _ rt h
        exact ⟨h, fun j => rfl⟩
      · intro _ rt h _
        exact ⟨h, fun j => rfl⟩
  | succ fuel ih =>
    obtain ⟨ih1, ih2, ih3⟩ := ih
    refine ⟨?_, ?_, ?_⟩
    · intro e rt hC
      cases e with
      | lit v =>
          rw [interpExpr_lit]
          exact ⟨hC, fun j => rfl⟩
      | sigGet i0 =>
          rw [interpExpr_sigGet]
          split
          · rcases htk : track rt i0 with ⟨r, rt1⟩
            have ht := c1_track hC i0
            rw [htk] at ht
            cases r <;> exact ht
          · exact ⟨hC, fun j => rfl⟩
      | compGet j0 =>
          rw [interpExpr_compGet]
          exact ih2 j0 rt hC
      | add a b =>
          rw [interpExpr_add]
          rcases h1 : interpExpr fuel a rt with ⟨r1, rt1⟩
          have ha := ih1 a rt hC
          rw [h1] at ha
          cases r1 with
          | error err => exact ha
          | ok va =>
            dsimp only
            rcases h2 : interpExpr fuel b rt1 with ⟨r2, rt2⟩
            have hb := ih1 b rt1 ha.1
            rw [h2] at hb
            cases r2 <;> exact ⟨hb.1, fun j => (hb.2 j).trans (ha.2 j)⟩
      | ifPos c t e0 =>
          rw [interpExpr_ifPos]
          rcases h1 : interpExpr fuel c rt with ⟨r1, rt1⟩
          have hc2 := ih1 c rt hC
          rw [h1] at hc2
          cases r1 with
          | error err => exact hc2
          | ok vc =>
            dsimp only
            split
            · have hx := ih1 t rt1 hc2.1
              exact ⟨hx.1, fun j => (hx.2 j).trans (hc2.2 j)⟩
            · have hx := ih1 e0 rt1 hc2.1
              exact ⟨hx.1, fun j => (hx.2 j).trans (hc2.2 j)⟩
      | throwE code =>
          rw [interpExpr_throwE]
          exact ⟨hC, fun j => rfl⟩
    · intro i rt hC
      rw [compGet_succ]
      split
      · rename_i hkind
        rcases htk : track rt i with ⟨r, rt1⟩
        have ht := c1_track hC i
        rw [htk] at ht
        cases r with
        | error err => exact ht
        | ok u =>
          dsimp only
          split
          · rcases hrc : recompute fuel i rt1 with ⟨r2, rt2⟩
            have h2 := ih3 i rt1 ht.1 (by rw [ht.2 i]; exact hkind)
            rw [hrc] at h2
            cases r2 <;> exact ⟨h2.1, fun j => (h2.2 j).trans (ht.2 j)⟩
          · exact ht
      · exact ⟨hC, fun j => rfl⟩
    · intro i rt hC hkc
      rw [recompute_succ]
      split
      · exact ⟨hC, fun j => rfl⟩
      · dsimp only
        set rtB :=
          ((rt.updN i (fun n => { n with computing := true })).getN i).deps.foldl
            (fun acc d => unlink acc i d)
            (rt.updN i (fun n => { n with computing := true })) with hAB
        have hCB : C1Inv rt0 rtB ∧ (∀ j, (rtB.getN j).kind = (rt.getN j).kind) := by
          rw [hAB]
          refine foldlPres (fun s => C1Inv rt0 s ∧ (∀ j, (s.getN j).kind = (rt.getN j).kind))
            (fun acc d => unlink acc i d) ?_ _ _ ?_
          · intro s d hs
            exact ⟨c1_unlink hs.1 i d,
                   fun j => ((unlink_keepsFields s i d j).1).trans (hs.2 j)⟩
          · exact ⟨c1_updN_frame hC i _ (fun n => rfl) (fun n => rfl),
                   updN_kind_frame rt i _ (fun n => rfl)⟩
        have hC3 : C1Inv rt0 ({ rtB with currentObserver := some i } : RT) :=
          c1_withFields hCB.1 rfl rfl rfl rfl
        rcases hI4 : interpExpr fuel
            ((({ rtB with currentObserver := some i } : RT).getN i).cbody)
            ({ rtB with currentObserver := some i } : RT) with ⟨r, rt4⟩
        have hbody := ih1 ((({ rtB with currentObserver := some i } : RT).getN i).cbody)
            ({ rtB with currentObserver := some i } : RT) hC3
        rw [hI4] at hbody
        have hk4 : ∀ j, (rt4.getN j).kind = (rt.getN j).kind :=
          fun j => (hbody.2 j).trans (hCB.2 j)
        cases r with
        | error err =>
            refine ⟨c1_withFields hbody.1 rfl rfl rfl rfl, ?_⟩
            intro j
            exact hk4 j
        | ok next =>
            dsimp only
            have hC5 : C1Inv rt0 ({ rt4 with currentObserver := rtB.currentObserver } : RT) :=
              c1_withFields hbody.1 rfl rfl rfl rfl
            split
            · have hC6 : C1Inv rt0 (({ rt4 with
                  currentObserver := rtB.currentObserver } : RT).updN i
                  (fun m => { m with value := next, hasValue := true })) := by
                refine c1_updN_nonsig hC5 i _ (fun n => rfl) ?_
                have hki : (({ rt4 with currentObserver := rtB.currentObserver } : RT).getN
                    i).kind = (rt.getN i).kind := hk4 i
                rw [hki, hkc]
                intro hcon
                exact Kind.noConfusion hcon
              have hC7 : C1Inv rt0 ((({ rt4 with
                  currentObserver := rtB.currentObserver } : RT).updN i
                  (fun m => { m with value := next, hasValue := true })).updN i
                  (fun m => { m with stale := false, computing := false })) :=
                c1_updN_frame hC6 i _ (fun n => rfl) (fun n => rfl)
              refine ⟨c1_withFields hC7 rfl rfl rfl
                  (count_flushStart_append_ne _ _ (fun hcon => Ev.noConfusion hcon)), ?_⟩
              intro j
              exact (updN_kind_frame (({ rt4 with currentObserver := rtB.currentObserver } :
                  RT).updN i (fun m => { m with value := next, hasValue := true })) i
                  (fun m => { m with stale := false, computing := false }) (fun n => rfl)
                  j).trans
                ((updN_kind_frame ({ rt4 with currentObserver := rtB.currentObserver } : RT) i
                  (fun m => { m with value := next, hasValue := true }) (fun n => rfl) j).trans
                  (hk4 j))
            · have hC7 : C1Inv rt0 (({ rt4 with
                  currentObserver := rtB.currentObserver } : RT).updN i
                  (fun m => { m with stale := false, computing := false })) :=
                c1_updN_frame hC5 i _ (fun n => rfl) (fun n => rfl)
              refine ⟨c1_withFields hC7 rfl rfl rfl
                  (count_flushStart_append_ne _ _ (fun hcon => Ev.noConfusion hcon)), ?_⟩
              intro j
              exact (updN_kind_frame ({ rt4 with currentObserver := rtB.currentObserver } : RT)
                  i (fun m => { m with stale := false, computing := false }) (fun n => rfl)
                  j).trans (hk4 j)

/-- Command execution and effect runs preserve the rollback invariant. -/
theorem c1CmdAll (rt0 : RT) : ∀ fuel : Nat,
    (∀ cs rt, C1Inv rt0 rt → C1Inv rt0 ((interpCmds fuel cs rt).2)) ∧
    (∀ c rt, C1Inv rt0 rt → C1Inv rt0 ((interpCmd fuel c rt).2)) ∧
    (∀ eid rt, C1Inv rt0 rt → C1Inv rt0 ((runEffect fuel eid rt).2)) := by
  intro fuel
  induction fuel with
  | zero =>
      exact ⟨fun _ rt h => h, fun _ rt h => h, fun _ rt h => h⟩
  | succ fuel ih =>
    obtain ⟨ihs, ihc, ihe⟩ := ih
    refine ⟨?_, ?_, ?_⟩
    · intro cs rt hC
      cases cs with
      | nil =>
          rw [interpCmds_nil]
          exact hC
      | cons c rest =>
          rw [interpCmds_cons]
          rcases h1 : interpCmd fuel c rt with ⟨r1, rt1⟩
          have h1p := ihc c rt hC
          rw [h1] at h1p
          cases r1 with
          | error err => exact h1p
          | ok u =>
              dsimp only
              exact ihs rest rt1 h1p
    · intro c rt hC
      cases c with
      | sigSetC i e =>
          rw [interpCmd_sigSetC]
          split
          · rename_i hg
            rcases h1 : interpExpr fuel e rt with ⟨r1, rt1⟩
            have h1p := (c1ExprAll rt0 fuel).1 e rt hC
            rw [h1] at h1p
            cases r1 with
            | error err => exact h1p.1
            | ok v =>
                dsimp only
                refine c1_setSignal fuel h1p.1 i v ?_
                rw [h1p.2 i]
                exact hg.2
          · exact hC
      | evalC e =>
          rw [interpCmd_evalC]
          rcases h1 : interpExpr fuel e rt with ⟨r1, rt1⟩
          have h1p := (c1ExprAll rt0 fuel).1 e rt hC
          rw [h1] at h1p
          cases r1 <;> exact h1p.1
      | cleanupC cid =>
          rw [interpCmd_cleanupC]
          cases ha : rt.activeEffect with
          | none => exact hC
          | some eid =>
              dsimp only
              exact c1_updN_frame hC eid _ (fun n => rfl) (fun n => rfl)
      | mkEffectC body =>
          rw [interpCmd_mkEffectC]
          have hCa : C1Inv rt0 ({ rt with
              nextId := rt.nextId + 1,
              nodes := fun j => if j = rt.nextId then
                  { kind := Kind.effect, ebody := body, registered := true }
                else rt.nodes j } : RT) :=
            c1_allocNode hC _ (by simp)
          exact ihe rt.nextId _ hCa
      | throwC code =>
          rw [interpCmd_throwC]
          exact hC
    · intro eid rt hC
      rw [runEffect_succ]
      split
      · exact hC
      · dsimp only
        set rtB :=
          ((rt.updN eid (fun n => { n with cleanups := [] })).getN eid).deps.foldl
            (fun acc d => unlink acc eid d)
            (rt.updN eid (fun n => { n with cleanups := [] })) with hAB
        have hCB : C1Inv rt0 rtB := by
          rw [hAB]
          refine foldlPres (fun s => C1Inv rt0 s) (fun acc d => unlink acc eid d) ?_ _ _ ?_
          · intro s d hs
            exact c1_unlink hs eid d
          · exact c1_updN_frame hC eid _ (fun n => rfl) (fun n => rfl)
        have hC3 : C1Inv rt0 ({ rtB with activeEffect := some eid,
                                         currentObserver := some eid,
                                         trace := rtB.trace ++ [.effStart eid] } : RT) :=
          c1_withFields hCB rfl rfl rfl
            (count_flushStart_append_ne _ _ (fun hcon => Ev.noConfusion hcon))
        rcases hI4 : interpCmds fuel
            ((({ rtB with activeEffect := some eid,
                          currentObserver := some eid,
                          trace := rtB.trace ++ [.effStart eid] } : RT).getN eid).ebody)
            ({ rtB with activeEffect := some eid,
                        currentObserver := some eid,
                        trace := rtB.trace ++ [.effStart eid] } : RT) with ⟨r, rt4⟩
        have hbody := ihs
            ((({ rtB with activeEffect := some eid,
                          currentObserver := some eid,
                          trace := rtB.trace ++ [.effStart eid] } : RT).getN eid).ebody)
            ({ rtB with activeEffect := some eid,
                        currentObserver := some eid,
                        trace := rtB.trace ++ [.effStart eid] } : RT) hC3
        rw [hI4] at hbody
        cases r with
        | error err =>
            exact c1_withFields hbody rfl rfl rfl rfl
        | ok u =>
            dsimp only
            exact c1_withFields hbody rfl rfl rfl
              (count_flushStart_append_ne _ _ (fun hcon => Ev.noConfusion hcon))

/-- A pre-atomic state with one signal holding `10`. -/
def c1rt0 : RT := (applyOp 5 (.newSignal (Val.int 10) (fun a b => a == b)) init).2

/-- An atomic body that writes the signal and then throws. -/
def c1body : List Cmd := [Cmd.sigSetC 0 (Expr.lit (Val.int 99)), Cmd.throwC 7]

/-- C1: if the body of `atomic` throws synchronously, the thrown error
propagates to the caller, every signal holds its pre-atomic value again (in
particular every signal written inside the section is restored), both
scheduler queues and the `scheduled` flag are cleared, and no flush is
performed (the number of flush starts in the trace is unchanged). -/
theorem atomic_rollback_on_throw (fuel : Nat) (body : List Cmd) (rt0 : RT) (e : Err)
    (rtB : RT) (hrun : interpCmds fuel body (atomicEnter rt0) = (Except.error e, rtB)) :
    (atomic fuel body rt0).1 = Except.error e ∧
    (∀ i, (((atomic fuel body rt0).2).getN i).kind = Kind.signal →
        (((atomic fuel body rt0).2).getN i).value = (rt0.getN i).value) ∧
    ((atomic fuel body rt0).2).computeQ = [] ∧
    ((atomic fuel body rt0).2).effectQ = [] ∧
    ((atomic fuel body rt0).2).scheduled = false ∧
    ((atomic fuel body rt0).2).trace.count Ev.flushStart
      = rt0.trace.count Ev.flushStart := by
  have hC0 : C1Inv rt0 (atomicEnter rt0) := by
    refine ⟨⟨[], rfl, ?_, ?_⟩, Nat.succ_pos _, rfl⟩
    · intro p hp
      exact absurd hp (List.not_mem_nil p)
    · intro i _ _
      rfl
  have hB : C1Inv rt0 rtB := by
    have h := (c1CmdAll rt0 fuel).1 body (atomicEnter rt0) hC0
    rw [hrun] at h
    exact h
  obtain ⟨log, hlg, hlv, hunl⟩ := hB.logsEq
  have hu1 : ∀ i, log.lookup i = none →
      ((({ rtB with atomicLogs := rt0.atomicLogs, atomicDepth := rtB.atomicDepth - 1,
                    muted := rtB.muted + 1 } : RT)).getN i).kind = Kind.signal →
      ((({ rtB with atomicLogs := rt0.atomicLogs, atomicDepth := rtB.atomicDepth - 1,
                    muted := rtB.muted + 1 } : RT)).getN i).value = (rt0.getN i).value :=
    fun i hi hki => hunl i hi hki
  have hval := restoreFold_value fuel rt0 log
    ({ rtB with atomicLogs := rt0.atomicLogs, atomicDepth := rtB.atomicDepth - 1,
                muted := rtB.muted + 1 } : RT) hlv hu1
  have htr : (log.foldl (fun acc p => restoreSignalAndMarkStale fuel p.1 p.2 acc)
      ({ rtB with atomicLogs := rt0.atomicLogs, atomicDepth := rtB.atomicDepth - 1,
                  muted := rtB.muted + 1 } : RT)).trace = rtB.trace := by
    refine foldlPres (fun s => s.trace = rtB.trace) _ ?_ _ _ rfl
    intro s p hs
    rw [restore_trace, hs]
  unfold atomic
  dsimp only
  rw [hrun]
  dsimp only
  unfold exitRollback
  rw [hlg]
  dsimp only
  refine ⟨rfl, ?_, rfl, rfl, rfl, ?_⟩
  · intro i hki
    exact hval i hki
  · rw [htr]
    exact hB.flushCnt

set_option maxHeartbeats 4000000 in
theorem atomic_rollback_on_throw_witness :
    (atomic 30 c1body c1rt0).1 = Except.error (Err.user 7) ∧
    ((atomic 30 c1body c1rt0).2.getN 0).value = Val.int 10 ∧
    (atomic 30 c1body c1rt0).2.computeQ = [] ∧
    (atomic 30 c1body c1rt0).2.effectQ = [] ∧
    (atomic 30 c1body c1rt0).2.scheduled = false ∧
    (atomic 30 c1body c1rt0).2.trace.count Ev.flushStart
      = c1rt0.trace.count Ev.flushStart := by
  have h1 : (interpCmds 30 c1body (atomicEnter c1rt0)).1 = Except.error (Err.user 7) := by
    decide
  have hrun : interpCmds 30 c1body (atomicEnter c1rt0)
      = (Except.error (Err.user 7), (interpCmds 30 c1body (atomicEnter c1rt0)).2) := by
    rw [← h1]
  have h := atomic_rollback_on_throw 30 c1body c1rt0 (Err.user 7)
    ((interpCmds 30 c1body (atomicEnter c1rt0)).2) hrun
  refine ⟨h.1, ?_, h.2.2.1, h.2.2.2.1, h.2.2.2.2.1, h.2.2.2.2.2⟩
  have hv := h.2.1 0 (by decide)
  rw [hv]
  decide

end SignalKernel
